import Mathlib

/-!
Shallow embedding of the General Yankee Swap allocation framework
(`src/fair/allocation.py` and `src/fair/envy.py`) and proofs about it.

Modelling conventions:
* Items are identified by their stable integer index `0 .. N-1`; the list
  `caps : List ℤ` records each item's capacity (`ScheduleItem.capacity`).
* The allocation matrix is a `List (List ℤ)` of `N` rows of length `M+1`,
  mirroring the numpy array: rows are items, columns `0 .. M-1` agents,
  column `M` the slack column.
* Bundles are lists of item indices in increasing order, exactly the order
  produced by `get_bundle_from_allocation_matrix` (a scan of the rows).
* Python floats are modelled by `PyFloat`: either `-inf`, a finite value
  in `ℚ`, or `inf`; the gain vector is a `List PyFloat`.
* Python exceptions (IndexError on a missing list entry, TypeError on a
  `None` index, ZeroDivisionError) are modelled with `Except PyErr`.
* The exchange graph is an insertion-ordered successor association list,
  mirroring the networkx adjacency dict; nodes are coded as: item `i` is
  node `i`, the sink `"t"` is node `N`, the transient source `"s"` is node
  `N + 1`.
-/

namespace YS

/-- Decidable equality for `Except` results, used to evaluate concrete
runs of the embedded code. -/
instance {e a : Type} [DecidableEq e] [DecidableEq a] : DecidableEq (Except e a) := fun x y =>
  match x, y with
  | .ok u, .ok v =>
    if h : u = v then isTrue (by rw [h]) else isFalse (by simp [h])
  | .error u, .error v =>
    if h : u = v then isTrue (by rw [h]) else isFalse (by simp [h])
  | .ok _, .error _ => isFalse (by simp)
  | .error _, .ok _ => isFalse (by simp)

/-- Python runtime errors that the embedded code can raise. -/
inductive PyErr where
  | indexError : PyErr
  | typeError : PyErr
  | zeroDivisionError : PyErr
deriving DecidableEq, Repr

/-- Model of the Python float values flowing through the gain vector:
`float("-inf")`, a finite value, or `float("inf")`. -/
inductive PyFloat where
  | ninf : PyFloat
  | val : ℚ → PyFloat
  | inf : PyFloat
deriving DecidableEq, Repr

/-- Strict comparison of float values. -/
def pfLt : PyFloat → PyFloat → Bool
  | .ninf, .ninf => false
  | .ninf, _ => true
  | .val _, .ninf => false
  | .val a, .val b => decide (a < b)
  | .val _, .inf => true
  | .inf, _ => false

/-- The allocation matrix: a list of `N` rows of length `M+1`. -/
abbrev Mat := List (List ℤ)

/-- Read one matrix entry (`X[i, j]`); out-of-range reads, which never
occur in any run considered, default to 0. -/
def readX (X : Mat) (i j : ℕ) : ℤ := (X.getD i []).getD j 0

/-- Write a single matrix entry: the numpy assignment `X[r, c] = v`. -/
def setX (X : Mat) (r c : ℕ) (v : ℤ) : Mat :=
  X.set r ((X.getD r []).set c v)

/-- Broadcast a value over a whole matrix row: the numpy assignment
`X[r, None] = v`, which is what `update_allocation` executes when
`find_agent` returned `None` (numpy treats `None` as a new axis, so the
assignment silently overwrites the entire row). -/
def setRow (X : Mat) (r : ℕ) (v : ℤ) : Mat :=
  X.set r ((X.getD r []).map fun _ => v)

/-- Row sum of the allocation matrix over the agent columns and the slack
column: `Σ_{j ≤ M} X[i, j]`. -/
def rowSum (M : ℕ) (X : Mat) (i : ℕ) : ℤ :=
  ∑ j in Finset.range (M + 1), readX X i j

/-- Modelled from the spec: the `BaseAgent` preference-query capability set
(spec §6); the class itself (`src/fair/agent.py`) is not under `src/`, only
its callers are.  `valuation bundle` is the agent's value for a bundle,
`marginal_contribution bundle item` the marginal value of adding `item`,
`exchange_contribution bundle item_out item_in` whether the agent is willing
to trade `item_out` for `item_in` given `bundle`, and `desired` the result
of `get_desired_items_indexes(items)`, a list of item indices. -/
structure BaseAgent where
  valuation : List ℕ → ℚ
  marginal_contribution : List ℕ → ℕ → ℚ
  exchange_contribution : List ℕ → ℕ → ℕ → Bool
  desired : List ℕ

/-- Placeholder agent used to totalise list indexing; every access is
guarded by an index bound so the placeholder is never consulted. -/
def defaultAgent : BaseAgent :=
  { valuation := fun _ => 0
    marginal_contribution := fun _ _ => 0
    exchange_contribution := fun _ _ _ => false
    desired := [] }

/-- The four gain-function criteria strings accepted by
`get_gain_function`. -/
inductive GainCriteria where
  | LorenzDominance : GainCriteria
  | WeightedLeximin : GainCriteria
  | WeightedNash : GainCriteria
  | WeightedHarmonic : GainCriteria
deriving DecidableEq, Repr

/-- Model of Python's `list(set(lis))` for lists of small non-negative
integers: the distinct members in increasing order.  (CPython iterates a
set of small ints in increasing slot order; no code path in the sources
depends on this order, every consumer treats the result as a set.) -/
def pySetList (l : List ℕ) : List ℕ :=
  (List.range (l.foldr max 0 + 1)).filter (fun i => decide (i ∈ l))

/-- Source `initialize_allocation_matrix` (allocation.py:14): all-zero
`N × (M+1)` matrix except that the last column holds each item's
capacity. -/
def init_allocation_matrix (caps : List ℤ) (M : ℕ) : Mat :=
  caps.map fun c => List.replicate M 0 ++ [c]

/-- The edge matrix `E` of the accelerated variant: `E[a][b]` is the list
of agents currently responsible for the exchange edge `a → b`. -/
abbrev EMat := List (List (List ℕ))

/-- Source `initialize_edge_matrix` (allocation.py:34): an `N × N` array
of empty lists. -/
def init_edge_matrix (N : ℕ) : EMat :=
  List.replicate N (List.replicate N ([] : List ℕ))

/-- Read one cell of the edge matrix. -/
def readE (E : EMat) (a b : ℕ) : List ℕ := (E.getD a []).getD b []

/-- Write one cell of the edge matrix. -/
def setE (E : EMat) (a b : ℕ) (l : List ℕ) : EMat :=
  E.set a ((E.getD a []).set b l)

/-- Directed graph as an insertion-ordered successor association list,
mirroring the networkx adjacency dict. -/
abbrev Graph := List (ℕ × List ℕ)

/-- Successor list of a node; absent nodes have no successors. -/
def gSucc (G : Graph) (u : ℕ) : List ℕ :=
  ((G.find? fun p => p.1 == u).map Prod.snd).getD []

/-- Test for an edge (`networkx has_edge`). -/
def hasEdge (G : Graph) (a b : ℕ) : Bool := decide (b ∈ gSucc G a)

/-- Add a node (`networkx add_node`): appends an isolated node if
absent. -/
def addNode (G : Graph) (u : ℕ) : Graph :=
  if (G.find? fun p => p.1 == u).isSome then G else G ++ [(u, [])]

/-- Add an edge (`networkx add_edge`): appends to the successor list,
idempotent; creates the source node entry if needed. -/
def addEdge (G : Graph) (a b : ℕ) : Graph :=
  if (G.find? fun p => p.1 == a).isSome then
    G.map fun p => if p.1 == a then (p.1, if b ∈ p.2 then p.2 else p.2 ++ [b]) else p
  else G ++ [(a, [b])]

/-- Remove an edge (`networkx remove_edge`).  Removing an absent edge is a
no-op here; the sources only remove edges they know to be present (the one
unguarded call site is reached with the edge present in every run the
claims range over). -/
def removeEdge (G : Graph) (a b : ℕ) : Graph :=
  G.map fun p => if p.1 == a then (p.1, p.2.erase b) else p

/-- Remove a node and its incident edges (`networkx remove_node`). -/
def removeNode (G : Graph) (u : ℕ) : Graph :=
  (G.filter fun p => p.1 != u).map fun p => (p.1, p.2.erase u)

/-- Source `initialize_exchange_graph` (allocation.py:54): one node per
item plus the sink `t = N`, and an edge from every item to the sink. -/
def init_exchange_graph (N : ℕ) : Graph :=
  ((List.range N).map fun i => (i, [N])) ++ [(N, [])]

/-- Source `get_owners_list` (allocation.py:116): indices of the nonzero
entries of row `item_index`, in increasing order (`np.nonzero` over the
row of length `M+1`; note the slack column participates). -/
def get_owners_list (X : Mat) (M : ℕ) (item_index : ℕ) : List ℕ :=
  (List.range (M + 1)).filter fun j => decide (readX X item_index j ≠ 0)

/-- Source `get_bundle_indexes_from_allocation_matrix` (allocation.py:151):
the indices of the items whose entry in the agent's column is exactly 1,
in increasing order.  `get_bundle_from_allocation_matrix` (allocation.py:131)
returns the same rows as item objects; since items are identified with
their indices here, both functions coincide. -/
def get_bundle_indexes_from_allocation_matrix (X : Mat) (N : ℕ) (agent_index : ℕ) : List ℕ :=
  (List.range N).filter fun i => decide (readX X i agent_index = 1)

/-- Source `get_multiple_agents_desired_items` (allocation.py:168):
set-union of the desired item indices of the listed agents. -/
def get_multiple_agents_desired_items (agents : List BaseAgent) (agents_indexes : List ℕ) :
    List ℕ :=
  pySetList (agents_indexes.foldl (fun lis u => lis ++ (agents.getD u defaultAgent).desired) [])

/-- Source `get_multiple_agents_bundles` (allocation.py:188): set-union of
the bundles of the listed agents. -/
def get_multiple_agents_bundles (X : Mat) (N : ℕ) (agents_indexes : List ℕ) : List ℕ :=
  pySetList (agents_indexes.foldl
    (fun lis u => lis ++ get_bundle_indexes_from_allocation_matrix X N u) [])

/-- Source `get_gain_function` (allocation.py:77).  The Python floats are
finite `PyFloat` values; `WeightedNash` with a non-integral weight takes a
float power whose exact value is irrational in general — no claim depends
on that value, and the branch keeps the faithful shape (finite, not
`-inf`).  A missing weight raises IndexError, a zero divisor
ZeroDivisionError, exactly where Python would. -/
def get_gain_function (X : Mat) (agents : List BaseAgent) (N : ℕ) (agent_picked : ℕ)
    (criteria : GainCriteria) (weights : List ℚ) : Except PyErr PyFloat :=
  let bundle := get_bundle_indexes_from_allocation_matrix X N agent_picked
  let val := (agents.getD agent_picked defaultAgent).valuation bundle
  if criteria = .LorenzDominance then .ok (.val (-val)) else
  match weights.get? agent_picked with
  | none => .error .indexError
  | some w =>
    match criteria with
    | .LorenzDominance => .ok (.val (-val))
    | .WeightedLeximin =>
      if w = 0 then .error .zeroDivisionError else .ok (.val (-val / w))
    | .WeightedNash =>
      if val = 0 then .ok .inf
      else if w.den = 1 then .ok (.val ((1 + 1 / val) ^ w.num))
      else .ok (.val 0)
    | .WeightedHarmonic =>
      if val + 1 = 0 then .error .zeroDivisionError else .ok (.val (w / (val + 1)))

/-- Inner loop of `find_agent` (allocation.py:224-231): scan the owners in
increasing order and return the first one willing to exchange
`current_item` for `last_item`.  If the scan reaches the slack column
(owner index `M`), Python's `agents[owner]` raises IndexError.  If the
scan exhausts the owners, Python prints "Agent not found" and implicitly
returns `None`. -/
def find_agent_go (X : Mat) (agents : List BaseAgent) (N : ℕ)
    (current_item last_item : ℕ) : List ℕ → Except PyErr (Option ℕ)
  | [] => .ok none
  | o :: rest =>
    if o < agents.length then
      if (agents.getD o defaultAgent).exchange_contribution
          (get_bundle_indexes_from_allocation_matrix X N o) current_item last_item
      then .ok (some o)
      else find_agent_go X agents N current_item last_item rest
    else .error .indexError

/-- Source `find_agent` (allocation.py:204). -/
def find_agent (X : Mat) (agents : List BaseAgent) (N : ℕ)
    (current_item last_item : ℕ) : Except PyErr (Option ℕ) :=
  find_agent_go X agents N current_item last_item (get_owners_list X agents.length current_item)

/-- The while loop of `update_allocation` (allocation.py:265-276), acting
on the reversed middle path (Python pops from the end of the slice, which
is the head of the reversal).  Returns the updated matrix and the list of
owners found, in append order; `none` records a `find_agent` miss, in
which case the numpy row broadcast of `X[item, None] = v` is performed and
the loop continues, exactly as the source does. -/
def uaLoop (agents : List BaseAgent) (N agent_picked : ℕ) :
    Mat → List ℕ → Except PyErr (Mat × List (Option ℕ))
  | X, [] => .ok (X, [])
  | X, [i1] => .ok (setX X i1 agent_picked 1, [])
  | X, last_item :: next_to_last :: rest =>
    match find_agent X agents N next_to_last last_item with
    | .error e => .error e
    | .ok (some a) =>
      match uaLoop agents N agent_picked
          (setX (setX X last_item a 1) next_to_last a 0) (next_to_last :: rest) with
      | .error e => .error e
      | .ok (X2, inv) => .ok (X2, some a :: inv)
    | .ok none =>
      match uaLoop agents N agent_picked
          (setRow (setRow X last_item 1) next_to_last 0) (next_to_last :: rest) with
      | .error e => .error e
      | .ok (X2, inv) => .ok (X2, none :: inv)

/-- Source `update_allocation` (allocation.py:240): slice the source and
sink off the path, decrement the slack of the item closest to the sink,
then walk the path backwards transferring items; `agents_involved` starts
with the picked agent.  An empty middle path would make Python's
`path[-1]` raise IndexError. -/
def update_allocation (X : Mat) (agents : List BaseAgent) (N : ℕ)
    (path_og : List ℕ) (agent_picked : ℕ) : Except PyErr (Mat × List (Option ℕ)) :=
  let mid := (path_og.drop 1).dropLast
  match mid.getLast? with
  | none => .error .indexError
  | some last_item =>
    let M := agents.length
    let X1 := setX X last_item M (readX X last_item M - 1)
    match uaLoop agents N agent_picked X1 mid.reverse with
    | .error e => .error e
    | .ok (X2, inv) => .ok (X2, some agent_picked :: inv)

/-- The while loop of `update_allocation_E` (allocation.py:313-329): like
`uaLoop`, but the executing owner is the first agent stored in
`E[next_to_last][last_item]` (IndexError if that list is empty), and the
owner is removed from every `E[next_to_last][·]` list, dropping the graph
edge when a list becomes empty. -/
def uaLoopE (agents : List BaseAgent) (N agent_picked : ℕ) :
    Mat → Graph → EMat → List ℕ → Except PyErr (Mat × Graph × EMat × List ℕ)
  | X, G, E, [] => .ok (X, G, E, [])
  | X, G, E, [i1] => .ok (setX X i1 agent_picked 1, G, E, [])
  | X, G, E, last_item :: next_to_last :: rest =>
    match (readE E next_to_last last_item).head? with
    | none => .error .indexError
    | some a =>
      let X1 := setX (setX X last_item a 1) next_to_last a 0
      let GE := (List.range N).foldl (fun (p : Graph × EMat) it =>
        if a ∈ readE p.2 next_to_last it then
          let El := (readE p.2 next_to_last it).erase a
          let E2 := setE p.2 next_to_last it El
          let G2 := if El = [] ∧ hasEdge p.1 next_to_last it
                    then removeEdge p.1 next_to_last it else p.1
          (G2, E2)
        else p) (G, E)
      match uaLoopE agents N agent_picked X1 GE.1 GE.2 (next_to_last :: rest) with
      | .error e => .error e
      | .ok (X2, G2, E2, inv) => .ok (X2, G2, E2, a :: inv)

/-- Source `update_allocation_E` (allocation.py:280). -/
def update_allocation_E (X : Mat) (G : Graph) (E : EMat) (agents : List BaseAgent) (N : ℕ)
    (path_og : List ℕ) (agent_picked : ℕ) :
    Except PyErr (Mat × Graph × EMat × List ℕ) :=
  let mid := (path_og.drop 1).dropLast
  match mid.getLast? with
  | none => .error .indexError
  | some last_item =>
    let M := agents.length
    let X1 := setX X last_item M (readX X last_item M - 1)
    match uaLoopE agents N agent_picked X1 G E mid.reverse with
    | .error e => .error e
    | .ok (X2, G2, E2, inv) => .ok (X2, G2, E2, agent_picked :: inv)

/-- Breadth-first search worker: the queue holds reversed partial paths
(`head` is the frontier node, `getLast` is the start); a node is marked
visited when enqueued.  Mirrors `nx.shortest_path` on an unweighted
digraph: every call site in the engines has a unique shortest path (or
none), on which any breadth-first search, including the networkx
bidirectional one, returns the same answer. -/
def bfsAux (G : Graph) (target : ℕ) : ℕ → List (List ℕ) → List ℕ → Option (List ℕ)
  | 0, _, _ => none
  | _ + 1, [], _ => none
  | fuel + 1, p :: queue, visited =>
    match p with
    | [] => none
    | u :: _ =>
      if u = target then some p.reverse
      else
        let nexts := (gSucc G u).filter fun v => decide (v ∉ visited)
        bfsAux G target fuel (queue ++ nexts.map fun v => v :: p) (visited ++ nexts)

/-- Source `find_shortest_path` (allocation.py:336): shortest path from
`start` to `targ`, or `none` when unreachable (the Python wraps the
networkx call in try/except and returns `False`).  `fuel` bounds the
number of dequeues; each node is enqueued at most once, so any
`fuel ≥ nodes + 1` is enough. -/
def find_shortest_path (G : Graph) (start targ : ℕ) (fuel : ℕ) : Option (List ℕ) :=
  bfsAux G targ fuel [[start]] [start]

/-- Source `add_agent_to_exchange_graph` (allocation.py:355): attach the
transient source `s = N+1` with an edge to every desired item that is not
already in the picked agent's bundle and whose marginal contribution is
exactly 1. -/
def add_agent_to_exchange_graph (X : Mat) (G : Graph) (agents : List BaseAgent) (N : ℕ)
    (agent_picked : ℕ) : Graph :=
  let bundle := get_bundle_indexes_from_allocation_matrix X N agent_picked
  let agent := agents.getD agent_picked defaultAgent
  agent.desired.foldl (fun Gc i =>
    if i ∉ bundle ∧ agent.marginal_contribution bundle i = 1
    then addEdge Gc (N + 1) i else Gc) (addNode G (N + 1))

/-- Source `update_exchange_graph` (allocation.py:387): full recomputation
of the trade edges touched by the transfer.  Removes the sink edge of the
item nearest the sink if its slack hit zero, then for every item owned by
an involved agent re-evaluates, against every candidate partner item,
whether some current owner is willing to trade. -/
def update_exchange_graph (X : Mat) (G : Graph) (agents : List BaseAgent) (N : ℕ)
    (path_og : List ℕ) (agents_involved : List ℕ) : Graph :=
  let mid := (path_og.drop 1).dropLast
  match mid.getLast? with
  | none => G
  | some last_item =>
    let M := agents.length
    let G1 := if readX X last_item M = 0 then removeEdge G last_item N else G
    let invDesired := get_multiple_agents_desired_items agents agents_involved
    let invBundles := get_multiple_agents_bundles X N agents_involved
    invBundles.foldl (fun Gacc item1 =>
      let owners := (get_owners_list X M item1).erase M
      let ownersDesired := get_multiple_agents_desired_items agents owners
      let toLoop := pySetList (invDesired ++ ownersDesired)
      toLoop.foldl (fun Gcur item2 =>
        if item2 ≠ item1 then
          let willing := owners.any fun o =>
            decide (o ≠ M) && (agents.getD o defaultAgent).exchange_contribution
              (get_bundle_indexes_from_allocation_matrix X N o) item1 item2
          if willing then (if hasEdge Gcur item1 item2 then Gcur else addEdge Gcur item1 item2)
          else (if hasEdge Gcur item1 item2 then removeEdge Gcur item1 item2 else Gcur)
        else Gcur) Gacc) G1

/-- Source `update_exchange_graph_E` (allocation.py:451): incremental
update of the edge matrix; only the involved agents recheck their swap
willingness, and graph edges are toggled exactly when a responsibility
list transitions to or from empty. -/
def update_exchange_graph_E (X : Mat) (G : Graph) (E : EMat) (agents : List BaseAgent)
    (N : ℕ) (path_og : List ℕ) (agents_involved : List ℕ) : Graph × EMat :=
  let mid := (path_og.drop 1).dropLast
  match mid.getLast? with
  | none => (G, E)
  | some last_item =>
    let M := agents.length
    let G1 := if readX X last_item M = 0 then removeEdge G last_item N else G
    agents_involved.foldl (fun (p : Graph × EMat) u =>
      let agent := agents.getD u defaultAgent
      let ab := get_bundle_indexes_from_allocation_matrix X N u
      ab.foldl (fun (p : Graph × EMat) i1 =>
        agent.desired.foldl (fun (p : Graph × EMat) i2 =>
          if i1 ≠ i2 then
            if u ∈ readE p.2 i1 i2 then
              if ¬ agent.exchange_contribution ab i1 i2 then
                let El := (readE p.2 i1 i2).erase u
                let E2 := setE p.2 i1 i2 El
                let G2 := if El = [] ∧ hasEdge p.1 i1 i2 then removeEdge p.1 i1 i2 else p.1
                (G2, E2)
              else p
            else
              if agent.exchange_contribution ab i1 i2 then
                let E2 := setE p.2 i1 i2 (readE p.2 i1 i2 ++ [u])
                let G2 := if ¬ hasEdge p.1 i1 i2 then addEdge p.1 i1 i2 else p.1
                (G2, E2)
              else p
          else p) p) p) (G1, E)

/-- The scan of `np.argmax` over the first `n` entries of the gain
vector. -/
def npArgmaxAux (g : List PyFloat) (n : ℕ) : ℕ :=
  (List.range n).foldl
    (fun best j => if pfLt (g.getD best .ninf) (g.getD j .ninf) then j else best) 0

/-- Model of `np.argmax` over the gain vector: index of the maximum
entry, first occurrence on ties. -/
def npArgmax (g : List PyFloat) : ℕ := npArgmaxAux g g.length

/-- Engine state of `general_yankee_swap`: allocation matrix, exchange
graph, gain vector, remaining players and the iteration counter.  The
elapsed-time series is wall-clock I/O and the involved-agents series a
pure diagnostic; neither is read by any claim, so they are not carried. -/
structure YsState where
  X : Mat
  G : Graph
  gain : List PyFloat
  players : List ℕ
  count : ℕ
deriving DecidableEq, Repr

/-- Engine state of `general_yankee_swap_E`: additionally the edge
matrix. -/
structure YsStateE where
  X : Mat
  G : Graph
  E : EMat
  gain : List PyFloat
  players : List ℕ
  count : ℕ
deriving DecidableEq, Repr

/-- Initial engine state shared by both variants (allocation.py:639-648):
empty allocation, base exchange graph, all-zero gain vector, all agents
playing. -/
def init_state (agents : List BaseAgent) (caps : List ℤ) : YsState :=
  { X := init_allocation_matrix caps agents.length
    G := init_exchange_graph caps.length
    gain := List.replicate agents.length (.val 0)
    players := List.range agents.length
    count := 0 }

/-- Initial state of the accelerated variant (allocation.py:702-711). -/
def init_state_E (agents : List BaseAgent) (caps : List ℤ) : YsStateE :=
  { X := init_allocation_matrix caps agents.length
    G := init_exchange_graph caps.length
    E := init_edge_matrix caps.length
    gain := List.replicate agents.length (.val 0)
    players := List.range agents.length
    count := 0 }

/-- One iteration of the `general_yankee_swap` while loop
(allocation.py:649-676).  On an uncaught Python exception the error value
carries the machine state at the moment of the raise.  An `agents_involved`
list containing `None` makes the subsequent `update_exchange_graph` call
index `agents[None]`, a TypeError, before anything else observable
happens; the model raises it at that point. -/
def ys_step (agents : List BaseAgent) (caps : List ℤ) (criteria : GainCriteria)
    (weights : List ℚ) (st : YsState) : Except (PyErr × YsState) YsState :=
  let N := caps.length
  let cnt := st.count + 1
  let agent_picked := npArgmax st.gain
  let G1 := add_agent_to_exchange_graph st.X st.G agents N agent_picked
  let path? := find_shortest_path G1 (N + 1) N (N + 3)
  let G2 := removeNode G1 (N + 1)
  match path? with
  | none =>
    .ok { st with
          G := G2
          players := st.players.erase agent_picked
          gain := st.gain.set agent_picked .ninf
          count := cnt }
  | some path =>
    match update_allocation st.X agents N path agent_picked with
    | .error e => .error (e, { st with G := G2, count := cnt })
    | .ok (X1, invOpt) =>
      if invOpt.all Option.isSome then
        let inv := invOpt.filterMap id
        let G3 := update_exchange_graph X1 G2 agents N path inv
        match get_gain_function X1 agents N agent_picked criteria weights with
        | .error e => .error (e, { st with X := X1, G := G3, count := cnt })
        | .ok gv =>
          .ok { X := X1
                G := G3
                gain := st.gain.set agent_picked gv
                players := st.players
                count := cnt }
      else .error (.typeError, { st with X := X1, G := G2, count := cnt })

/-- One iteration of the `general_yankee_swap_E` while loop
(allocation.py:713-744). -/
def ys_step_E (agents : List BaseAgent) (caps : List ℤ) (criteria : GainCriteria)
    (weights : List ℚ) (st : YsStateE) : Except (PyErr × YsStateE) YsStateE :=
  let N := caps.length
  let cnt := st.count + 1
  let agent_picked := npArgmax st.gain
  let G1 := add_agent_to_exchange_graph st.X st.G agents N agent_picked
  let path? := find_shortest_path G1 (N + 1) N (N + 3)
  let G2 := removeNode G1 (N + 1)
  match path? with
  | none =>
    .ok { st with
          G := G2
          players := st.players.erase agent_picked
          gain := st.gain.set agent_picked .ninf
          count := cnt }
  | some path =>
    match update_allocation_E st.X G2 st.E agents N path agent_picked with
    | .error e => .error (e, { st with G := G2, count := cnt })
    | .ok (X1, Ga, E1, inv) =>
      let GE := update_exchange_graph_E X1 Ga E1 agents N path inv
      match get_gain_function X1 agents N agent_picked criteria weights with
      | .error e => .error (e, { st with X := X1, G := GE.1, E := GE.2, count := cnt })
      | .ok gv =>
        .ok { X := X1
              G := GE.1
              E := GE.2
              gain := st.gain.set agent_picked gv
              players := st.players
              count := cnt }

/-- The while loop of `general_yankee_swap`, with explicit fuel: `ok none`
means the fuel ran out with players left (the Python loop would keep
iterating); `ok (some st)` is normal completion; `error` an uncaught
exception. -/
def ys_loop (agents : List BaseAgent) (caps : List ℤ) (criteria : GainCriteria)
    (weights : List ℚ) : ℕ → YsState → Except (PyErr × YsState) (Option YsState)
  | fuel, st =>
    if st.players = [] then .ok (some st)
    else
      match fuel with
      | 0 => .ok none
      | fuel' + 1 =>
        match ys_step agents caps criteria weights st with
        | .error e => .error e
        | .ok st2 => ys_loop agents caps criteria weights fuel' st2

/-- The while loop of `general_yankee_swap_E`, with explicit fuel. -/
def ys_loop_E (agents : List BaseAgent) (caps : List ℤ) (criteria : GainCriteria)
    (weights : List ℚ) : ℕ → YsStateE → Except (PyErr × YsStateE) (Option YsStateE)
  | fuel, st =>
    if st.players = [] then .ok (some st)
    else
      match fuel with
      | 0 => .ok none
      | fuel' + 1 =>
        match ys_step_E agents caps criteria weights st with
        | .error e => .error e
        | .ok st2 => ys_loop_E agents caps criteria weights fuel' st2

/-- Source `general_yankee_swap` (allocation.py:618): run the loop from
the initial state.  The fuel parameter models the unbounded Python while
loop; the termination theorem for claim C6 shows that
`(caps.map Int.toNat).sum + agents.length` fuel always suffices. -/
def general_yankee_swap (agents : List BaseAgent) (caps : List ℤ) (criteria : GainCriteria)
    (weights : List ℚ) (fuel : ℕ) : Except (PyErr × YsState) (Option YsState) :=
  ys_loop agents caps criteria weights fuel (init_state agents caps)

/-- Source `general_yankee_swap_E` (allocation.py:680). -/
def general_yankee_swap_E (agents : List BaseAgent) (caps : List ℤ) (criteria : GainCriteria)
    (weights : List ℚ) (fuel : ℕ) : Except (PyErr × YsStateE) (Option YsStateE) :=
  ys_loop_E agents caps criteria weights fuel (init_state_E agents caps)

/-- Canonical fuel for a run: total item capacity plus the number of
agents. -/
def ys_fuel (caps : List ℤ) (M : ℕ) : ℕ := (caps.map Int.toNat).sum + M

/-- Total slack held in the matrix, as a natural number. -/
def totalSlack (caps : List ℤ) (M : ℕ) (X : Mat) : ℕ :=
  ∑ i in Finset.range caps.length, (readX X i M).toNat

/-- Termination measure of the engine loop. -/
def ysMeasure (caps : List ℤ) (agents : List BaseAgent) (st : YsState) : ℕ :=
  totalSlack caps agents.length st.X + st.players.length

/-- Per-step success conditions for the `update_allocation` walk over the
reversed middle path (head is the item nearest the sink): at every stage
`find_agent` finds an owner who holds the item being given up and does not
already hold the item being received, and finally the picked agent does
not already hold the item nearest the source. -/
def okLoop (agents : List BaseAgent) (N agent_picked : ℕ) : Mat → List ℕ → Bool
  | _, [] => true
  | X, [i1] => decide (readX X i1 agent_picked = 0)
  | X, last_item :: next_to_last :: rest =>
    match find_agent X agents N next_to_last last_item with
    | .ok (some a) =>
      decide (readX X next_to_last a = 1) && decide (readX X last_item a = 0) &&
        okLoop agents N agent_picked
          (setX (setX X last_item a 1) next_to_last a 0) (next_to_last :: rest)
    | _ => false

/-- Success conditions for a whole `update_allocation` call on
`path_og = s :: mid ++ [t]`: the middle is nonempty and `okLoop` holds
after the initial slack decrement. -/
def okPath (X : Mat) (agents : List BaseAgent) (N : ℕ) (path_og : List ℕ)
    (agent_picked : ℕ) : Bool :=
  let mid := (path_og.drop 1).dropLast
  match mid.getLast? with
  | none => false
  | some last_item =>
    okLoop agents N agent_picked
      (setX X last_item agents.length (readX X last_item agents.length - 1)) mid.reverse

/-- State invariant of a run in which no agent is ever willing to trade:
the exchange graph never acquires an item-to-item edge (every edge targets
the sink `t = N`) and the transient source stays absent. -/
def noTradeInv (caps : List ℤ) (st : YsState) : Prop :=
  (∀ u v, v ∈ gSucc st.G u → v = caps.length) ∧
  (∀ v, v ∉ gSucc st.G (caps.length + 1))

/-- Chain predicate for a queue entry of the BFS inside
`find_shortest_path`: stored paths are reversed, so each element must be a
graph successor of the element after it. -/
def revPath (G : Graph) : List ℕ → Bool
  | [] => true
  | [_] => true
  | a :: b :: rest => hasEdge G b a && revPath G (b :: rest)

/-- Forward chain predicate: consecutive elements are graph edges. -/
def fwdPath (G : Graph) : List ℕ → Bool
  | [] => true
  | [_] => true
  | a :: b :: rest => hasEdge G a b && fwdPath G (b :: rest)

/-- Reachable-state invariant of the naive engine loop: the remaining
players are distinct real agent indices, the gain vector marks exactly the
saturated agents with `-inf`, the matrix has one row per item and one
column per agent plus slack, the transient source `s = N+1` is absent from
the graph, successor lists are duplicate-free, every edge targets an item
or the sink, and an item keeps its edge to the sink only while it has
slack left. -/
structure YsInv (agents : List BaseAgent) (caps : List ℤ) (st : YsState) : Prop where
  nodup : st.players.Nodup
  mem_lt : ∀ a ∈ st.players, a < agents.length
  act : ∀ a ∈ st.players, st.gain.getD a .ninf ≠ .ninf
  sat : ∀ a, a < agents.length → a ∉ st.players → st.gain.getD a .ninf = .ninf
  glen : st.gain.length = agents.length
  xlen : st.X.length = caps.length
  rows : ∀ i, i < st.X.length → (st.X.getD i []).length = agents.length + 1
  noSrcIn : ∀ u, caps.length + 1 ∉ gSucc st.G u
  noSrcOut : ∀ v, v ∉ gSucc st.G (caps.length + 1)
  gnodup : ∀ u, (gSucc st.G u).Nodup
  targets : ∀ u v, v ∈ gSucc st.G u → v ≤ caps.length
  sink : ∀ i, caps.length ∈ gSucc st.G i → 1 ≤ readX st.X i agents.length

/-- Correspondence between a naive-engine state and an accelerated-engine
state: all shared components coincide (the edge matrix `E` has no
counterpart in the naive engine). -/
def stateRel (st : YsState) (stE : YsStateE) : Prop :=
  stE.X = st.X ∧ stE.G = st.G ∧ stE.gain = st.gain ∧ stE.players = st.players ∧
    stE.count = st.count

/-- Agreement of the two engines' run results: same normal completion,
same fuel exhaustion, or the same exception at corresponding states. -/
def outcomesAgree :
    Except (PyErr × YsState) (Option YsState) →
      Except (PyErr × YsStateE) (Option YsStateE) → Prop
  | .error (e, st), .error (e2, stE) => e2 = e ∧ stateRel st stE
  | .ok none, .ok none => True
  | .ok (some st), .ok (some stE) => stateRel st stE
  | _, _ => False

/-- Envy test for an ordered pair of agents (envy.py:24-34): does agent
`i` strictly prefer agent `j`'s bundle to its own? -/
def EF_pair (X : Mat) (agents : List BaseAgent) (N i j : ℕ) : Bool :=
  decide (i ≠ j) &&
    decide ((agents.getD i defaultAgent).valuation
        (get_bundle_indexes_from_allocation_matrix X N i) <
      (agents.getD i defaultAgent).valuation
        (get_bundle_indexes_from_allocation_matrix X N j))

/-- EF-1 violation test for an ordered pair (envy.py:94-103): agent `i`
envies `j` and no single item dropped from `j`'s bundle brings `i`'s value
of the reduced bundle down to at most `i`'s own value (the inner flag loop
with break). -/
def EF1_pair (X : Mat) (agents : List BaseAgent) (N i j : ℕ) : Bool :=
  EF_pair X agents N i j &&
    !((List.range (get_bundle_indexes_from_allocation_matrix X N j).length).any fun k =>
      decide ((agents.getD i defaultAgent).valuation
          ((get_bundle_indexes_from_allocation_matrix X N j).eraseIdx k) ≤
        (agents.getD i defaultAgent).valuation
          (get_bundle_indexes_from_allocation_matrix X N i)))

/-- EF-X violation test for an ordered pair (envy.py:175-184): agent `i`
envies `j` and there is at least one item whose removal from `j`'s bundle
still leaves `i` envying. -/
def EFX_pair (X : Mat) (agents : List BaseAgent) (N i j : ℕ) : Bool :=
  EF_pair X agents N i j &&
    ((List.range (get_bundle_indexes_from_allocation_matrix X N j).length).any fun k =>
      decide ((agents.getD i defaultAgent).valuation
          (get_bundle_indexes_from_allocation_matrix X N i) <
        (agents.getD i defaultAgent).valuation
          ((get_bundle_indexes_from_allocation_matrix X N j).eraseIdx k)))

/-- Source `EF_count` (envy.py:8): the nested counting loops, one count
per envious ordered pair. -/
def EF_count (X : Mat) (agents : List BaseAgent) (N : ℕ) : ℕ :=
  ((List.range agents.length).map fun i =>
    (List.range agents.length).countP fun j => EF_pair X agents N i j).sum

/-- Source `EF_agents` (envy.py:38): the same loops with a break, one
count per envious agent. -/
def EF_agents (X : Mat) (agents : List BaseAgent) (N : ℕ) : ℕ :=
  (List.range agents.length).countP fun i =>
    (List.range agents.length).any fun j => EF_pair X agents N i j

/-- Source `EF_1_count` (envy.py:69). -/
def EF_1_count (X : Mat) (agents : List BaseAgent) (N : ℕ) : ℕ :=
  ((List.range agents.length).map fun i =>
    (List.range agents.length).countP fun j => EF1_pair X agents N i j).sum

/-- Source `EF_1_agents` (envy.py:108). -/
def EF_1_agents (X : Mat) (agents : List BaseAgent) (N : ℕ) : ℕ :=
  (List.range agents.length).countP fun i =>
    (List.range agents.length).any fun j => EF1_pair X agents N i j

/-- Source `EF_X_count` (envy.py:150). -/
def EF_X_count (X : Mat) (agents : List BaseAgent) (N : ℕ) : ℕ :=
  ((List.range agents.length).map fun i =>
    (List.range agents.length).countP fun j => EFX_pair X agents N i j).sum

/-- Source `EF_X_agents` (envy.py:189). -/
def EF_X_agents (X : Mat) (agents : List BaseAgent) (N : ℕ) : ℕ :=
  (List.range agents.length).countP fun i =>
    (List.range agents.length).any fun j => EFX_pair X agents N i j

/-- Projection of an engine run outcome to comparable data: on normal
completion, the final allocation matrix. -/
def runMat : Except (PyErr × YsState) (Option YsState) → Option Mat
  | .ok (some st) => some st.X
  | _ => none

/-- Projection of an accelerated-engine run outcome to comparable data. -/
def runMatE : Except (PyErr × YsStateE) (Option YsStateE) → Option Mat
  | .ok (some st) => some st.X
  | _ => none

/-- Projection of an engine run outcome on an uncaught exception: the
error kind, the iteration counter and the allocation matrix at the moment
of the raise. -/
def runErr : Except (PyErr × YsState) (Option YsState) → Option (PyErr × ℕ × Mat)
  | .error (e, st) => some (e, st.count, st.X)
  | _ => none

/-- Counterexample input for claim C1, agent 0: grabs item 3 first, then
triggers the divergent chain by asking for item 0 at the end. -/
def agC1_0 : BaseAgent :=
  { valuation := fun b => if b = [3] then 3 else if b = [0, 3] then 5 else 0
    marginal_contribution := fun b i =>
      if b = [] ∧ i = 3 then 1 else if b = [3] ∧ i = 0 then 1 else 0
    exchange_contribution := fun _ _ _ => false
    desired := [0, 3] }

/-- Counterexample input for claim C1, agent 1: owns item 0, becomes
willing to trade item 0 for item 1 only once it also holds item 2 — and it
acquires item 2 after agent 2 does, so it is appended to `E[0][1]` second
although it is the lower-indexed willing owner. -/
def agC1_1 : BaseAgent :=
  { valuation := fun b => if b = [0] then 2 else if b = [0, 2] then 4 else 0
    marginal_contribution := fun b i =>
      if b = [] ∧ i = 0 then 1 else if b = [0] ∧ i = 2 then 1 else 0
    exchange_contribution := fun b x y => decide (b = [0, 2] ∧ x = 0 ∧ y = 1)
    desired := [0, 1, 2] }

/-- Counterexample input for claim C1, agent 2: like agent 1 but acquires
item 2 earlier, so it heads the `E[0][1]` list. -/
def agC1_2 : BaseAgent :=
  { valuation := fun b => if b = [0] then 1 else if b = [0, 2] then 3 else 0
    marginal_contribution := fun b i =>
      if b = [] ∧ i = 0 then 1 else if b = [0] ∧ i = 2 then 1 else 0
    exchange_contribution := fun b x y => decide (b = [0, 2] ∧ x = 0 ∧ y = 1)
    desired := [0, 1, 2] }

/-- The counterexample agents for claim C1. -/
def agsC1 : List BaseAgent := [agC1_0, agC1_1, agC1_2]

/-- The counterexample item capacities for claim C1: item 0 has two units,
items 1 and 3 one, item 2 two. -/
def capsC1 : List ℤ := [2, 1, 2, 1]

/-- Counterexample input for claim C3, agent 0: it owns nothing and envies
agent 1's bundle `{0, 1}`; dropping item 1 kills the envy (so the pair is
EF-1 satisfied) but dropping item 0 leaves it (so the pair is an EF-X
violation). -/
def agC3_0 : BaseAgent :=
  { valuation := fun b => if b = [0, 1] then 5 else if b = [1] then 3 else 0
    marginal_contribution := fun _ _ => 0
    exchange_contribution := fun _ _ _ => false
    desired := [] }

/-- Counterexample input for claim C3, agent 1: indifferent to
everything. -/
def agC3_1 : BaseAgent :=
  { valuation := fun _ => 0
    marginal_contribution := fun _ _ => 0
    exchange_contribution := fun _ _ _ => false
    desired := [] }

/-- The counterexample agents for claim C3. -/
def agsC3 : List BaseAgent := [agC3_0, agC3_1]

/-- The counterexample allocation for claim C3: agent 1 holds both items,
agent 0 holds nothing. -/
def XC3 : Mat := [[0, 1, 0], [0, 1, 0]]

/-- Failing input for claim C4, an agent that desires item 0. -/
def agC4 : BaseAgent :=
  { valuation := fun b => if b = [0] then 1 else 0
    marginal_contribution := fun b i => if b = [] ∧ i = 0 then 1 else 0
    exchange_contribution := fun _ _ _ => false
    desired := [0] }

/-- Failing input for claim C4, an agent that desires nothing (saturated
on its very first pick). -/
def agC4none : BaseAgent :=
  { valuation := fun _ => 0
    marginal_contribution := fun _ _ => 0
    exchange_contribution := fun _ _ _ => false
    desired := [] }

/-- Failing input for claim C5: the sole owner of item 0 who is never
willing to exchange it, although the path being executed presumes an
owner willing to give item 0 for item 1. -/
def agC5_0 : BaseAgent :=
  { valuation := fun _ => 0
    marginal_contribution := fun _ _ => 0
    exchange_contribution := fun _ _ _ => false
    desired := [0] }

/-- The agents of the claim C5 failing input: agent 0 owns item 0, agent 1
is the picked agent executing the path. -/
def agsC5 : List BaseAgent := [agC5_0, agC4]

/-- The claim C5 allocation: agent 0 holds item 0 (no slack), item 1 has
one unit of slack. -/
def XC5 : Mat := [[1, 0, 0], [0, 0, 1]]

/-- Witness agent for claims C2 and C10: the owner of item 0, willing to
perform any exchange. -/
def agC2w : BaseAgent :=
  { valuation := fun _ => 0
    marginal_contribution := fun _ _ => 0
    exchange_contribution := fun _ _ _ => true
    desired := [0] }

/-- Witness agents for claims C2 and C10: agent 0 owns item 0 and is
willing to exchange it; agent 1 is the picked agent. -/
def agsC2 : List BaseAgent := [agC2w, agC4]

/-- Intermediate states of the naive engine on the claim C1 counterexample
input, one per completed iteration. -/
def stC1N : ℕ → YsState
  | 0 => ⟨[[0, 0, 0, 2], [0, 0, 0, 1], [0, 0, 0, 2], [0, 0, 0, 1]],
      [(0, [4]), (1, [4]), (2, [4]), (3, [4]), (4, [])],
      [.val 0, .val 0, .val 0], [0, 1, 2], 0⟩
  | 1 => ⟨[[0, 0, 0, 2], [0, 0, 0, 1], [0, 0, 0, 2], [1, 0, 0, 0]],
      [(0, [4]), (1, [4]), (2, [4]), (3, []), (4, [])],
      [.val (-3), .val 0, .val 0], [0, 1, 2], 1⟩
  | 2 => ⟨[[0, 1, 0, 1], [0, 0, 0, 1], [0, 0, 0, 2], [1, 0, 0, 0]],
      [(0, [4]), (1, [4]), (2, [4]), (3, []), (4, [])],
      [.val (-3), .val (-2), .val 0], [0, 1, 2], 2⟩
  | 3 => ⟨[[0, 1, 1, 0], [0, 0, 0, 1], [0, 0, 0, 2], [1, 0, 0, 0]],
      [(0, []), (1, [4]), (2, [4]), (3, []), (4, [])],
      [.val (-3), .val (-2), .val (-1)], [0, 1, 2], 3⟩
  | 4 => ⟨[[0, 1, 1, 0], [0, 0, 0, 1], [0, 0, 1, 1], [1, 0, 0, 0]],
      [(0, [1]), (1, [4]), (2, [4]), (3, []), (4, [])],
      [.val (-3), .val (-2), .val (-3)], [0, 1, 2], 4⟩
  | 5 => ⟨[[0, 1, 1, 0], [0, 0, 0, 1], [0, 1, 1, 0], [1, 0, 0, 0]],
      [(0, [1]), (1, [4]), (2, []), (3, []), (4, [])],
      [.val (-3), .val (-4), .val (-3)], [0, 1, 2], 5⟩
  | 6 => ⟨[[1, 0, 1, 0], [0, 1, 0, 0], [0, 1, 1, 0], [1, 0, 0, 0]],
      [(0, [1]), (1, []), (2, []), (3, []), (4, [])],
      [.val (-5), .val (-4), .val (-3)], [0, 1, 2], 6⟩
  | 7 => ⟨[[1, 0, 1, 0], [0, 1, 0, 0], [0, 1, 1, 0], [1, 0, 0, 0]],
      [(0, [1]), (1, []), (2, []), (3, []), (4, [])],
      [.val (-5), .val (-4), .ninf], [0, 1], 7⟩
  | 8 => ⟨[[1, 0, 1, 0], [0, 1, 0, 0], [0, 1, 1, 0], [1, 0, 0, 0]],
      [(0, [1]), (1, []), (2, []), (3, []), (4, [])],
      [.val (-5), .ninf, .ninf], [0], 8⟩
  | _ => ⟨[[1, 0, 1, 0], [0, 1, 0, 0], [0, 1, 1, 0], [1, 0, 0, 0]],
      [(0, [1]), (1, []), (2, []), (3, []), (4, [])],
      [.ninf, .ninf, .ninf], [], 9⟩

/-- Intermediate states of the accelerated engine on the claim C1
counterexample input, one per completed iteration.  From iteration 6 on,
its allocation matrix differs from the naive one: the swap chain moved
agent 2, the head of `E[0][1] = [2, 1]`, while the naive engine moved
agent 1, the lowest-indexed willing owner. -/
def stC1E : ℕ → YsStateE
  | 0 => ⟨[[0, 0, 0, 2], [0, 0, 0, 1], [0, 0, 0, 2], [0, 0, 0, 1]],
      [(0, [4]), (1, [4]), (2, [4]), (3, [4]), (4, [])],
      [[[], [], [], []], [[], [], [], []], [[], [], [], []], [[], [], [], []]],
      [.val 0, .val 0, .val 0], [0, 1, 2], 0⟩
  | 1 => ⟨[[0, 0, 0, 2], [0, 0, 0, 1], [0, 0, 0, 2], [1, 0, 0, 0]],
      [(0, [4]), (1, [4]), (2, [4]), (3, []), (4, [])],
      [[[], [], [], []], [[], [], [], []], [[], [], [], []], [[], [], [], []]],
      [.val (-3), .val 0, .val 0], [0, 1, 2], 1⟩
  | 2 => ⟨[[0, 1, 0, 1], [0, 0, 0, 1], [0, 0, 0, 2], [1, 0, 0, 0]],
      [(0, [4]), (1, [4]), (2, [4]), (3, []), (4, [])],
      [[[], [], [], []], [[], [], [], []], [[], [], [], []], [[], [], [], []]],
      [.val (-3), .val (-2), .val 0], [0, 1, 2], 2⟩
  | 3 => ⟨[[0, 1, 1, 0], [0, 0, 0, 1], [0, 0, 0, 2], [1, 0, 0, 0]],
      [(0, []), (1, [4]), (2, [4]), (3, []), (4, [])],
      [[[], [], [], []], [[], [], [], []], [[], [], [], []], [[], [], [], []]],
      [.val (-3), .val (-2), .val (-1)], [0, 1, 2], 3⟩
  | 4 => ⟨[[0, 1, 1, 0], [0, 0, 0, 1], [0, 0, 1, 1], [1, 0, 0, 0]],
      [(0, [1]), (1, [4]), (2, [4]), (3, []), (4, [])],
      [[[], [2], [], []], [[], [], [], []], [[], [], [], []], [[], [], [], []]],
      [.val (-3), .val (-2), .val (-3)], [0, 1, 2], 4⟩
  | 5 => ⟨[[0, 1, 1, 0], [0, 0, 0, 1], [0, 1, 1, 0], [1, 0, 0, 0]],
      [(0, [1]), (1, [4]), (2, []), (3, []), (4, [])],
      [[[], [2, 1], [], []], [[], [], [], []], [[], [], [], []], [[], [], [], []]],
      [.val (-3), .val (-4), .val (-3)], [0, 1, 2], 5⟩
  | 6 => ⟨[[1, 1, 0, 0], [0, 0, 1, 0], [0, 1, 1, 0], [1, 0, 0, 0]],
      [(0, [1]), (1, []), (2, []), (3, []), (4, [])],
      [[[], [1], [], []], [[], [], [], []], [[], [], [], []], [[], [], [], []]],
      [.val (-5), .val (-4), .val (-3)], [0, 1, 2], 6⟩
  | 7 => ⟨[[1, 1, 0, 0], [0, 0, 1, 0], [0, 1, 1, 0], [1, 0, 0, 0]],
      [(0, [1]), (1, []), (2, []), (3, []), (4, [])],
      [[[], [1], [], []], [[], [], [], []], [[], [], [], []], [[], [], [], []]],
      [.val (-5), .val (-4), .ninf], [0, 1], 7⟩
  | 8 => ⟨[[1, 1, 0, 0], [0, 0, 1, 0], [0, 1, 1, 0], [1, 0, 0, 0]],
      [(0, [1]), (1, []), (2, []), (3, []), (4, [])],
      [[[], [1], [], []], [[], [], [], []], [[], [], [], []], [[], [], [], []]],
      [.val (-5), .ninf, .ninf], [0], 8⟩
  | _ => ⟨[[1, 1, 0, 0], [0, 0, 1, 0], [0, 1, 1, 0], [1, 0, 0, 0]],
      [(0, [1]), (1, []), (2, []), (3, []), (4, [])],
      [[[], [1], [], []], [[], [], [], []], [[], [], [], []], [[], [], [], []]],
      [.ninf, .ninf, .ninf], [], 9⟩

/-- The condition counted by claim C8 for an ordered pair `(i, j)`:
agent `i` values agent `j`'s bundle strictly above its own, and no single
item removable from `j`'s bundle brings `i`'s valuation of the reduced
bundle down to at most `i`'s own bundle value. -/
def EF1_viol (X : Mat) (agents : List BaseAgent) (N i j : ℕ) : Prop :=
  i ≠ j ∧
    (agents.getD i defaultAgent).valuation (get_bundle_indexes_from_allocation_matrix X N i) <
      (agents.getD i defaultAgent).valuation (get_bundle_indexes_from_allocation_matrix X N j) ∧
    ∀ k < (get_bundle_indexes_from_allocation_matrix X N j).length,
      (agents.getD i defaultAgent).valuation (get_bundle_indexes_from_allocation_matrix X N i) <
        (agents.getD i defaultAgent).valuation
          ((get_bundle_indexes_from_allocation_matrix X N j).eraseIdx k)

instance (X : Mat) (agents : List BaseAgent) (N i j : ℕ) :
    Decidable (EF1_viol X agents N i j) := by
  unfold EF1_viol
  infer_instance

/-- Witness allocation for the amended claim C3: every agent holds one
item, so every bundle is nonempty. -/
def XC3w : Mat := [[1, 0, 0], [0, 1, 0]]

/-! ## Helper lemmas -/

/-- Unfolding lemma: one executed loop iteration of the naive engine. -/
theorem ys_loop_go {agents : List BaseAgent} {caps : List ℤ} {criteria : GainCriteria}
    {weights : List ℚ} {fuel : ℕ} {st st2 : YsState} (hne : st.players ≠ [])
    (hstep : ys_step agents caps criteria weights st = .ok st2) :
    ys_loop agents caps criteria weights (fuel + 1) st =
      ys_loop agents caps criteria weights fuel st2 := by
  rw [ys_loop.eq_def]
  simp only [if_neg hne, hstep]

/-- Unfolding lemma: the naive engine loop stops when no players
remain. -/
theorem ys_loop_stop {agents : List BaseAgent} {caps : List ℤ} {criteria : GainCriteria}
    {weights : List ℚ} {fuel : ℕ} {st : YsState} (hpl : st.players = []) :
    ys_loop agents caps criteria weights fuel st = .ok (some st) := by
  rw [ys_loop.eq_def]
  simp only [if_pos hpl]

/-- Unfolding lemma: a loop iteration of the naive engine that raises. -/
theorem ys_loop_raise {agents : List BaseAgent} {caps : List ℤ} {criteria : GainCriteria}
    {weights : List ℚ} {fuel : ℕ} {st : YsState} {e : PyErr × YsState}
    (hne : st.players ≠ [])
    (hstep : ys_step agents caps criteria weights st = .error e) :
    ys_loop agents caps criteria weights (fuel + 1) st = .error e := by
  rw [ys_loop.eq_def]
  simp only [if_neg hne, hstep]

/-- Unfolding lemma: one executed loop iteration of the accelerated
engine. -/
theorem ys_loop_E_go {agents : List BaseAgent} {caps : List ℤ} {criteria : GainCriteria}
    {weights : List ℚ} {fuel : ℕ} {st st2 : YsStateE} (hne : st.players ≠ [])
    (hstep : ys_step_E agents caps criteria weights st = .ok st2) :
    ys_loop_E agents caps criteria weights (fuel + 1) st =
      ys_loop_E agents caps criteria weights fuel st2 := by
  rw [ys_loop_E.eq_def]
  simp only [if_neg hne, hstep]

/-- Unfolding lemma: the accelerated engine loop stops when no players
remain. -/
theorem ys_loop_E_stop {agents : List BaseAgent} {caps : List ℤ} {criteria : GainCriteria}
    {weights : List ℚ} {fuel : ℕ} {st : YsStateE} (hpl : st.players = []) :
    ys_loop_E agents caps criteria weights fuel st = .ok (some st) := by
  rw [ys_loop_E.eq_def]
  simp only [if_pos hpl]

/-- The naive engine on the claim C1 counterexample input: the full run,
assembled iteration by iteration. -/
theorem runC1N : general_yankee_swap agsC1 capsC1 .LorenzDominance [] 9 =
    .ok (some (stC1N 9)) := by
  have h0 : init_state agsC1 capsC1 = stC1N 0 := by decide
  have h1 : ys_step agsC1 capsC1 .LorenzDominance [] (stC1N 0) = .ok (stC1N 1) := by decide
  have h2 : ys_step agsC1 capsC1 .LorenzDominance [] (stC1N 1) = .ok (stC1N 2) := by decide
  have h3 : ys_step agsC1 capsC1 .LorenzDominance [] (stC1N 2) = .ok (stC1N 3) := by decide
  have h4 : ys_step agsC1 capsC1 .LorenzDominance [] (stC1N 3) = .ok (stC1N 4) := by decide
  have h5 : ys_step agsC1 capsC1 .LorenzDominance [] (stC1N 4) = .ok (stC1N 5) := by decide
  have h6 : ys_step agsC1 capsC1 .LorenzDominance [] (stC1N 5) = .ok (stC1N 6) := by decide
  have h7 : ys_step agsC1 capsC1 .LorenzDominance [] (stC1N 6) = .ok (stC1N 7) := by decide
  have h8 : ys_step agsC1 capsC1 .LorenzDominance [] (stC1N 7) = .ok (stC1N 8) := by decide
  have h9 : ys_step agsC1 capsC1 .LorenzDominance [] (stC1N 8) = .ok (stC1N 9) := by decide
  rw [general_yankee_swap, h0, ys_loop_go (by decide) h1, ys_loop_go (by decide) h2,
    ys_loop_go (by decide) h3, ys_loop_go (by decide) h4, ys_loop_go (by decide) h5,
    ys_loop_go (by decide) h6, ys_loop_go (by decide) h7, ys_loop_go (by decide) h8,
    ys_loop_go (by decide) h9, ys_loop_stop (by decide)]

/-- The accelerated engine on the claim C1 counterexample input: the full
run, assembled iteration by iteration. -/
theorem runC1E : general_yankee_swap_E agsC1 capsC1 .LorenzDominance [] 9 =
    .ok (some (stC1E 9)) := by
  have h0 : init_state_E agsC1 capsC1 = stC1E 0 := by decide
  have h1 : ys_step_E agsC1 capsC1 .LorenzDominance [] (stC1E 0) = .ok (stC1E 1) := by decide
  have h2 : ys_step_E agsC1 capsC1 .LorenzDominance [] (stC1E 1) = .ok (stC1E 2) := by decide
  have h3 : ys_step_E agsC1 capsC1 .LorenzDominance [] (stC1E 2) = .ok (stC1E 3) := by decide
  have h4 : ys_step_E agsC1 capsC1 .LorenzDominance [] (stC1E 3) = .ok (stC1E 4) := by decide
  have h5 : ys_step_E agsC1 capsC1 .LorenzDominance [] (stC1E 4) = .ok (stC1E 5) := by decide
  have h6 : ys_step_E agsC1 capsC1 .LorenzDominance [] (stC1E 5) = .ok (stC1E 6) := by decide
  have h7 : ys_step_E agsC1 capsC1 .LorenzDominance [] (stC1E 6) = .ok (stC1E 7) := by decide
  have h8 : ys_step_E agsC1 capsC1 .LorenzDominance [] (stC1E 7) = .ok (stC1E 8) := by decide
  have h9 : ys_step_E agsC1 capsC1 .LorenzDominance [] (stC1E 8) = .ok (stC1E 9) := by decide
  rw [general_yankee_swap_E, h0, ys_loop_E_go (by decide) h1, ys_loop_E_go (by decide) h2,
    ys_loop_E_go (by decide) h3, ys_loop_E_go (by decide) h4, ys_loop_E_go (by decide) h5,
    ys_loop_E_go (by decide) h6, ys_loop_E_go (by decide) h7, ys_loop_E_go (by decide) h8,
    ys_loop_E_go (by decide) h9, ys_loop_E_stop (by decide)]

/-- The slack decrement plus transfer walk of the claim C4 first failing
input completes one allocation before the missing weight is consulted. -/
theorem runC4a : runErr (general_yankee_swap [agC4] [1] .WeightedLeximin [] 5) =
    some (.indexError, 1, [[1, 0]]) := by decide

/-- The claim C4 second failing input: the error surfaces only in
iteration 2, after agent 0 was saturated in iteration 1. -/
theorem runC4b : runErr (general_yankee_swap [agC4none, agC4] [1] .WeightedLeximin [] 5) =
    some (.indexError, 2, [[0, 1, 0]]) := by decide

/-- A sum of a function over `List.range` is the matching `Finset.range`
sum. -/
theorem sum_map_range (n : ℕ) (f : ℕ → ℕ) :
    ((List.range n).map f).sum = ∑ i in Finset.range n, f i := by
  induction n with
  | zero => simp
  | succ n ih =>
    rw [List.range_succ, List.map_append, List.sum_append, Finset.sum_range_succ, ih]
    simp

/-- Counting over `List.range` is the cardinality of the matching
`Finset.range` filter. -/
theorem countP_range (n : ℕ) (p : ℕ → Bool) :
    (List.range n).countP p = ((Finset.range n).filter fun i => p i = true).card := by
  induction n with
  | zero => simp
  | succ n ih =>
    rw [List.range_succ, List.countP_append, Finset.range_succ, Finset.filter_insert]
    by_cases hp : p n = true
    · rw [if_pos hp, Finset.card_insert_of_not_mem (by simp)]
      simp [hp, ih]
    · rw [if_neg hp]
      simp [hp, ih]

/-- A count of rows with a witness is at most the sum of per-row counts. -/
theorem countP_le_sum_map (l : List ℕ) (f : ℕ → Bool) (g : ℕ → ℕ)
    (h : ∀ i ∈ l, f i = true → 1 ≤ g i) : l.countP f ≤ (l.map g).sum := by
  induction l with
  | nil => simp
  | cons a l ih =>
    rw [List.countP_cons, List.map_cons, List.sum_cons]
    have ha := h a (List.mem_cons_self a l)
    have hl := ih fun i hi => h i (List.mem_cons_of_mem a hi)
    cases hf : f a with
    | true =>
      have := ha hf
      simp only [hf, if_pos]
      omega
    | false =>
      simp only [hf, Bool.false_eq_true, if_false]
      omega

/-- A sum of per-agent pair counts bounds another when the counted
condition is pointwise weaker. -/
theorem pair_count_le (n : ℕ) (p q : ℕ → ℕ → Bool)
    (hpq : ∀ i ∈ List.range n, ∀ j ∈ List.range n, p i j = true → q i j = true) :
    ((List.range n).map fun i => (List.range n).countP fun j => p i j).sum ≤
      ((List.range n).map fun i => (List.range n).countP fun j => q i j).sum :=
  List.sum_le_sum fun i hi => List.countP_mono_left fun j hj => hpq i hi j hj

/-- A sum of per-row cardinalities over a square range is the cardinality
of the corresponding filtered product. -/
theorem sum_card_filter_eq (n : ℕ) (Q : ℕ → ℕ → Prop) [∀ i j : ℕ, Decidable (Q i j)] :
    ∑ i in Finset.range n, ((Finset.range n).filter (Q i)).card =
      ((Finset.range n ×ˢ Finset.range n).filter fun p => Q p.1 p.2).card := by
  rw [Finset.card_filter, Finset.sum_product]
  exact Finset.sum_congr rfl fun i _ => Finset.card_filter _ _

/-- An EF-X violation on a pair is in particular an envy (EF violation) on
that pair. -/
theorem EFX_pair_imp_EF (X : Mat) (agents : List BaseAgent) (N i j : ℕ)
    (h : EFX_pair X agents N i j = true) : EF_pair X agents N i j = true := by
  rw [EFX_pair, Bool.and_eq_true] at h
  exact h.1

/-- An EF-1 violation on a pair is in particular an envy (EF violation) on
that pair. -/
theorem EF1_pair_imp_EF (X : Mat) (agents : List BaseAgent) (N i j : ℕ)
    (h : EF1_pair X agents N i j = true) : EF_pair X agents N i j = true := by
  rw [EF1_pair, Bool.and_eq_true] at h
  exact h.1

/-- When the envied bundle is nonempty, an EF-1 violation on a pair is an
EF-X violation on that pair: if every single-item removal leaves envy then
some removal does. -/
theorem EF1_pair_imp_EFX (X : Mat) (agents : List BaseAgent) (N i j : ℕ)
    (hne : get_bundle_indexes_from_allocation_matrix X N j ≠ [])
    (h : EF1_pair X agents N i j = true) : EFX_pair X agents N i j = true := by
  rw [EF1_pair, Bool.and_eq_true] at h
  rw [EFX_pair, Bool.and_eq_true]
  rcases h with ⟨hef, hall⟩
  refine ⟨hef, ?_⟩
  rw [List.any_eq_true]
  refine ⟨0, List.mem_range.mpr (List.length_pos.mpr hne), ?_⟩
  rw [Bool.not_eq_true', List.any_eq_false] at hall
  have h0 := hall 0 (List.mem_range.mpr (List.length_pos.mpr hne))
  simp only [decide_eq_true_eq] at h0
  rw [decide_eq_true_eq]
  exact not_le.mp h0

/-- An `EF1_pair` test succeeds exactly on the pairs described by claim
C8. -/
theorem EF1_pair_iff (X : Mat) (agents : List BaseAgent) (N i j : ℕ) :
    EF1_pair X agents N i j = true ↔ EF1_viol X agents N i j := by
  rw [EF1_pair, EF_pair, EF1_viol]
  simp only [Bool.and_eq_true, decide_eq_true_eq, Bool.not_eq_true', List.any_eq_false,
    List.mem_range, decide_eq_false_iff_not, not_le, and_assoc]

/-! ## Claim theorems -/

/-- Claim C1 (corrected), counterexample: on the concrete input
`agsC1`/`capsC1` with the `LorenzDominance` criterion and no weights, the
naive and the edge-index-accelerated engines both terminate normally but
return different final allocation matrices (the naive variant executes the
final swap through agent 1, the lowest-indexed willing owner of item 0,
while the accelerated variant executes it through agent 2, the first agent
stored in `E[0][1] = [2, 1]`). -/
theorem C1_counterexample :
    runMat (general_yankee_swap agsC1 capsC1 .LorenzDominance [] 9) =
      some [[1, 0, 1, 0], [0, 1, 0, 0], [0, 1, 1, 0], [1, 0, 0, 0]] ∧
    runMatE (general_yankee_swap_E agsC1 capsC1 .LorenzDominance [] 9) =
      some [[1, 1, 0, 0], [0, 0, 1, 0], [0, 1, 1, 0], [1, 0, 0, 0]] ∧
    runMat (general_yankee_swap agsC1 capsC1 .LorenzDominance [] 9) ≠
      runMatE (general_yankee_swap_E agsC1 capsC1 .LorenzDominance [] 9) := by
  refine ⟨?_, ?_, ?_⟩
  · rw [runC1N]
    decide
  · rw [runC1E]
    decide
  · rw [runC1N, runC1E]
    decide

/-- Claim C3 (corrected), counterexample: on the concrete allocation
`XC3` the EF-X violation count strictly exceeds the EF-1 violation count,
so `EF_X_count ≤ EF_1_count` fails. -/
theorem C3_counterexample : ¬ (EF_X_count XC3 agsC3 2 ≤ EF_1_count XC3 agsC3 2) := by decide

/-- Claim C3 (corrected), amended: when every agent's bundle is nonempty
the fairness ordering runs the other way around,
`EF_1_count ≤ EF_X_count ≤ EF_count` (and `EF_1_count ≤ EF_count`
unconditionally follows). -/
theorem C3_amended (X : Mat) (agents : List BaseAgent) (N : ℕ)
    (hne : ∀ j, j < agents.length →
      get_bundle_indexes_from_allocation_matrix X N j ≠ []) :
    EF_1_count X agents N ≤ EF_X_count X agents N ∧
    EF_X_count X agents N ≤ EF_count X agents N ∧
    EF_1_count X agents N ≤ EF_count X agents N := by
  refine ⟨?_, ?_, ?_⟩
  · rw [EF_1_count, EF_X_count]
    exact pair_count_le _ _ _ fun i _ j hj hp =>
      EF1_pair_imp_EFX X agents N i j (hne j (List.mem_range.mp hj)) hp
  · rw [EF_X_count, EF_count]
    exact pair_count_le _ _ _ fun i _ j _ hp => EFX_pair_imp_EF X agents N i j hp
  · rw [EF_1_count, EF_count]
    exact pair_count_le _ _ _ fun i _ j _ hp => EF1_pair_imp_EF X agents N i j hp

/-- Witness for the amended claim C3, at the concrete allocation `XC3w`
whose bundles are all nonempty. -/
theorem C3_witness :
    (∀ j, j < agsC3.length → get_bundle_indexes_from_allocation_matrix XC3w 2 j ≠ []) ∧
    (EF_1_count XC3w agsC3 2 ≤ EF_X_count XC3w agsC3 2 ∧
     EF_X_count XC3w agsC3 2 ≤ EF_count XC3w agsC3 2 ∧
     EF_1_count XC3w agsC3 2 ≤ EF_count XC3w agsC3 2) :=
  ⟨by decide, C3_amended XC3w agsC3 2 (by decide)⟩

/-- Claim C4 (code bug): no configuration validation happens before the
loop.  With `WeightedLeximin` and an empty weights list, the run raises
IndexError only at the gain update at the end of the first successful
iteration — after `update_allocation` has already mutated the matrix away
from its initial value — and when the first agent is saturated in
iteration 1, the same error surfaces only in iteration 2. -/
theorem C4_no_fail_fast :
    runErr (general_yankee_swap [agC4] [1] .WeightedLeximin [] 5) =
      some (.indexError, 1, [[1, 0]]) ∧
    init_allocation_matrix [1] 1 = [[0, 1]] ∧
    runErr (general_yankee_swap [agC4none, agC4] [1] .WeightedLeximin [] 5) =
      some (.indexError, 2, [[0, 1, 0]]) ∧
    init_allocation_matrix [1] 2 = [[0, 0, 1]] :=
  ⟨runC4a, by decide, runC4b, by decide⟩

/-- Claim C5 (code bug): when no current owner of a confirmed path item is
willing to exchange, `find_agent` returns `None` and `update_allocation`
does not abort: it returns normally, records `None` among the involved
agents, and the numpy `None`-index broadcasts have overwritten whole
matrix rows — row 1's sum jumps from its capacity 1 to 3, a corrupted,
partially-transferred state. -/
theorem C5_silent_corruption :
    find_agent XC5 agsC5 2 0 1 = .ok none ∧
    update_allocation XC5 agsC5 2 [3, 0, 1, 2] 1 =
      .ok ([[0, 1, 0], [1, 1, 1]], [some 1, none]) ∧
    rowSum 2 [[0, 1, 0], [1, 1, 1]] 1 = 3 ∧ rowSum 2 XC5 1 = 1 := by
  refine ⟨by decide, by decide, ?_, ?_⟩ <;> decide

/-- Claim C8 (confirmed): `EF_1_count` is exactly the number of ordered
pairs `(i, j)`, `i ≠ j`, where agent `i` envies `j` and no single item
removable from `j`'s bundle brings `i`'s valuation of the reduced bundle
down to at most `i`'s own value; `EF_1_agents` counts the same condition
at most once per envying agent `i`. -/
theorem C8_EF1_exact (X : Mat) (agents : List BaseAgent) (N : ℕ) :
    EF_1_count X agents N =
      ((Finset.range agents.length ×ˢ Finset.range agents.length).filter
        fun p => EF1_viol X agents N p.1 p.2).card ∧
    EF_1_agents X agents N =
      ((Finset.range agents.length).filter
        fun i => ∃ j < agents.length, EF1_viol X agents N i j).card := by
  constructor
  · rw [EF_1_count, sum_map_range, ← sum_card_filter_eq]
    refine Finset.sum_congr rfl fun i _ => ?_
    rw [countP_range]
    congr 1
    exact Finset.filter_congr fun j _ => by rw [EF1_pair_iff]
  · rw [EF_1_agents, countP_range]
    congr 1
    refine Finset.filter_congr fun i _ => ?_
    simp only [List.any_eq_true, List.mem_range, EF1_pair_iff]

/-- Claim C9 (confirmed): each per-agent envy metric is bounded both by
its pair-counting counterpart and by the number of agents. -/
theorem C9_agents_bounds (X : Mat) (agents : List BaseAgent) (N : ℕ) :
    EF_agents X agents N ≤ min (EF_count X agents N) agents.length ∧
    EF_1_agents X agents N ≤ min (EF_1_count X agents N) agents.length ∧
    EF_X_agents X agents N ≤ min (EF_X_count X agents N) agents.length := by
  refine ⟨le_min ?_ ?_, le_min ?_ ?_, le_min ?_ ?_⟩
  · rw [EF_agents, EF_count]
    refine countP_le_sum_map _ _ _ fun i _ hf => ?_
    rw [List.any_eq_true] at hf
    rcases hf with ⟨j, hj, hpj⟩
    exact List.countP_pos_iff.mpr ⟨j, hj, hpj⟩
  · rw [EF_agents]
    simpa using List.countP_le_length (l := List.range agents.length) _
  · rw [EF_1_agents, EF_1_count]
    refine countP_le_sum_map _ _ _ fun i _ hf => ?_
    rw [List.any_eq_true] at hf
    rcases hf with ⟨j, hj, hpj⟩
    exact List.countP_pos_iff.mpr ⟨j, hj, hpj⟩
  · rw [EF_1_agents]
    simpa using List.countP_le_length (l := List.range agents.length) _
  · rw [EF_X_agents, EF_X_count]
    refine countP_le_sum_map _ _ _ fun i _ hf => ?_
    rw [List.any_eq_true] at hf
    rcases hf with ⟨j, hj, hpj⟩
    exact List.countP_pos_iff.mpr ⟨j, hj, hpj⟩
  · rw [EF_X_agents]
    simpa using List.countP_le_length (l := List.range agents.length) _

/-- Float comparison is irreflexive. -/
theorem pfLt_irrefl (a : PyFloat) : pfLt a a = false := by
  cases a <;> simp [pfLt]

/-- Float comparison is transitive. -/
theorem pfLt_trans {a b c : PyFloat} (h1 : pfLt a b = true) (h2 : pfLt b c = true) :
    pfLt a c = true := by
  cases a <;> cases b <;> cases c <;> simp_all [pfLt]
  linarith

/-- Two floats with no strict comparison either way are equal. -/
theorem pfLt_connex {a b : PyFloat} (h1 : pfLt a b = false) (h2 : pfLt b a = false) :
    a = b := by
  cases a <;> cases b <;> simp_all [pfLt]
  linarith

/-- Every float other than `-inf` is strictly above `-inf`. -/
theorem pfLt_ninf {a : PyFloat} (h : a ≠ .ninf) : pfLt .ninf a = true := by
  cases a <;> simp_all [pfLt]

/-- One step of the `np.argmax` scan. -/
theorem npArgmaxAux_succ (g : List PyFloat) (n : ℕ) :
    npArgmaxAux g (n + 1) =
      if pfLt (g.getD (npArgmaxAux g n) .ninf) (g.getD n .ninf) then n
      else npArgmaxAux g n := by
  rw [npArgmaxAux, npArgmaxAux, List.range_succ, List.foldl_append, List.foldl_cons,
    List.foldl_nil]

/-- The `np.argmax` scan stays within range. -/
theorem npArgmaxAux_lt (g : List PyFloat) (n : ℕ) (hn : 0 < n) : npArgmaxAux g n < n := by
  induction n with
  | zero => omega
  | succ n ih =>
    rw [npArgmaxAux_succ]
    by_cases hc : pfLt (g.getD (npArgmaxAux g n) .ninf) (g.getD n .ninf) = true
    · rw [if_pos hc]
      omega
    · rw [if_neg hc]
      rcases Nat.eq_zero_or_pos n with h0 | h0
      · subst h0
        show npArgmaxAux g 0 < 1
        rw [npArgmaxAux]
        simp
      · exact (ih h0).trans (Nat.lt_succ_self n)

/-- The `np.argmax` scan returns an index of a maximal entry. -/
theorem npArgmaxAux_max (g : List PyFloat) (n : ℕ) :
    ∀ j < n, pfLt (g.getD (npArgmaxAux g n) .ninf) (g.getD j .ninf) = false := by
  induction n with
  | zero => omega
  | succ n ih =>
    intro j hj
    rw [npArgmaxAux_succ]
    by_cases hc : pfLt (g.getD (npArgmaxAux g n) .ninf) (g.getD n .ninf) = true
    · rw [if_pos hc]
      rcases Nat.lt_succ_iff_lt_or_eq.mp hj with hj' | hj'
      · by_contra hcon
        rw [Bool.not_eq_false] at hcon
        have := pfLt_trans hc hcon
        rw [ih j hj'] at this
        exact Bool.false_ne_true this
      · subst hj'
        exact pfLt_irrefl _
    · rw [if_neg hc]
      rcases Nat.lt_succ_iff_lt_or_eq.mp hj with hj' | hj'
      · exact ih j hj'
      · subst hj'
        exact Bool.not_eq_true _ |>.mp hc

/-- The `np.argmax` scan returns the first index attaining the maximum:
every earlier entry is strictly smaller. -/
theorem npArgmaxAux_first (g : List PyFloat) (n : ℕ) :
    ∀ j < npArgmaxAux g n, pfLt (g.getD j .ninf) (g.getD (npArgmaxAux g n) .ninf) = true := by
  induction n with
  | zero =>
    intro j hj
    rw [npArgmaxAux] at hj
    simp at hj
  | succ n ih =>
    intro j hj
    rw [npArgmaxAux_succ] at hj ⊢
    by_cases hc : pfLt (g.getD (npArgmaxAux g n) .ninf) (g.getD n .ninf) = true
    · rw [if_pos hc] at hj ⊢
      have hmax := npArgmaxAux_max g n j hj
      by_contra hcon
      rw [Bool.not_eq_true] at hcon
      by_cases hnj : pfLt (g.getD n .ninf) (g.getD j .ninf) = true
      · have := pfLt_trans hc hnj
        rw [hmax] at this
        exact Bool.false_ne_true this
      · have := pfLt_connex hcon (Bool.not_eq_true _ |>.mp hnj)
        rw [← this] at hc
        rw [hmax] at hc
        exact Bool.false_ne_true hc
    · rw [if_neg hc] at hj ⊢
      exact ih j hj

/-- Claim C7 (confirmed): the SELECT step of the engine,
`agent_picked = npArgmax gain`, picks an active player whose gain entry is
maximal among the active players, ties broken toward the lowest index;
given that every active player's gain is not `-inf` while every saturated
agent's is, a saturated agent is never picked while any player remains,
even though `np.argmax` scans the full gain vector. -/
theorem C7_select (g : List PyFloat) (players : List ℕ)
    (hsub : ∀ j ∈ players, j < g.length)
    (hne : players ≠ [])
    (hact : ∀ j ∈ players, g.getD j .ninf ≠ .ninf)
    (hsat : ∀ j, j < g.length → j ∉ players → g.getD j .ninf = .ninf) :
    npArgmax g ∈ players ∧
    (∀ j ∈ players, pfLt (g.getD (npArgmax g) .ninf) (g.getD j .ninf) = false) ∧
    (∀ j ∈ players, g.getD j .ninf = g.getD (npArgmax g) .ninf → npArgmax g ≤ j) := by
  obtain ⟨p, hp⟩ : ∃ p, p ∈ players := by
    cases players with
    | nil => exact absurd rfl hne
    | cons a l => exact ⟨a, List.mem_cons_self a l⟩
  have hlen : 0 < g.length := Nat.lt_of_le_of_lt (Nat.zero_le p) (hsub p hp)
  have hA : npArgmax g < g.length := npArgmaxAux_lt g g.length hlen
  have hmax := npArgmaxAux_max g g.length
  have hfirst := npArgmaxAux_first g g.length
  have hmem : npArgmax g ∈ players := by
    by_contra hout
    have hninf : g.getD (npArgmax g) .ninf = .ninf := hsat _ hA hout
    have hpmax := hmax p (hsub p hp)
    rw [show npArgmax g = npArgmaxAux g g.length from rfl] at hninf
    rw [hninf, pfLt_ninf (hact p hp)] at hpmax
    exact Bool.true_eq_false.mp hpmax
  refine ⟨hmem, fun j hj => hmax j (hsub j hj), fun j hj heq => ?_⟩
  by_contra hlt
  have hjA : j < npArgmax g := Nat.lt_of_not_le hlt
  have := hfirst j (by rw [show npArgmaxAux g g.length = npArgmax g from rfl]; exact hjA)
  rw [show npArgmax g = npArgmaxAux g g.length from rfl] at heq
  rw [heq, pfLt_irrefl] at this
  exact Bool.false_ne_true this

/-- Witness for claim C7 at a concrete gain vector and player list: agent
0 is saturated (`-inf`), agents 1 and 2 are active and tied, and the scan
picks agent 1. -/
theorem C7_witness :
    (∀ j ∈ [1, 2], j < ([.ninf, .val 1, .val 1] : List PyFloat).length) ∧
    (∀ j ∈ [1, 2], ([.ninf, .val 1, .val 1] : List PyFloat).getD j .ninf ≠ .ninf) ∧
    (∀ j, j < ([.ninf, .val 1, .val 1] : List PyFloat).length → j ∉ [1, 2] →
      ([.ninf, .val 1, .val 1] : List PyFloat).getD j .ninf = .ninf) ∧
    (npArgmax [.ninf, .val 1, .val 1] ∈ [1, 2] ∧
     (∀ j ∈ [1, 2], pfLt (([.ninf, .val 1, .val 1] : List PyFloat).getD
        (npArgmax [.ninf, .val 1, .val 1]) .ninf)
        (([.ninf, .val 1, .val 1] : List PyFloat).getD j .ninf) = false) ∧
     (∀ j ∈ [1, 2], ([.ninf, .val 1, .val 1] : List PyFloat).getD j .ninf =
        ([.ninf, .val 1, .val 1] : List PyFloat).getD
          (npArgmax [.ninf, .val 1, .val 1]) .ninf →
        npArgmax [.ninf, .val 1, .val 1] ≤ j)) :=
  ⟨by decide, by decide, by decide,
    C7_select [.ninf, .val 1, .val 1] [1, 2] (by decide) (by decide) (by decide) (by decide)⟩

/-- Reading a row that does not exist yields the default 0. -/
theorem readX_row_oob {X : Mat} {i : ℕ} (h : X.length ≤ i) (j : ℕ) : readX X i j = 0 := by
  unfold readX
  rw [List.getD_eq_default _ _ h]
  simp

/-- Reading past the end of a row yields the default 0. -/
theorem readX_col_oob {X : Mat} {i j : ℕ} (h : (X.getD i []).length ≤ j) : readX X i j = 0 :=
  List.getD_eq_default _ _ h

/-- A nonzero entry certifies that its row and column exist. -/
theorem readX_ne_zero_bounds {X : Mat} {i j : ℕ} (h : readX X i j ≠ 0) :
    i < X.length ∧ j < (X.getD i []).length := by
  constructor
  · by_contra hc
    exact h (readX_row_oob (Nat.le_of_not_lt hc) j)
  · by_contra hc
    exact h (readX_col_oob (Nat.le_of_not_lt hc))

/-- Replacing a row in range reads back the new row. -/
theorem getD_set_row_eq {X : Mat} {r : ℕ} (row : List ℤ) (h : r < X.length) :
    (X.set r row).getD r [] = row := by
  rw [List.getD_eq_getElem?_getD (X.set r row) r, List.getElem?_set, if_pos rfl, if_pos h]
  rfl

/-- Replacing a row leaves the other rows unchanged. -/
theorem getD_set_row_ne {X : Mat} {r i : ℕ} (row : List ℤ) (h : r ≠ i) :
    (X.set r row).getD i [] = X.getD i [] := by
  rw [List.getD_eq_getElem?_getD (X.set r row) i, List.getElem?_set, if_neg h,
    ← List.getD_eq_getElem?_getD]

/-- Writing one cell of a row in range reads back the value. -/
theorem getD_cell_eq {l : List ℤ} {c : ℕ} (v : ℤ) (h : c < l.length) :
    (l.set c v).getD c 0 = v := by
  rw [List.getD_eq_getElem?_getD (l.set c v) c, List.getElem?_set, if_pos rfl, if_pos h]
  rfl

/-- Writing one cell of a row leaves the other cells unchanged. -/
theorem getD_cell_ne {l : List ℤ} {c j : ℕ} (v : ℤ) (h : j ≠ c) :
    (l.set c v).getD j 0 = l.getD j 0 := by
  rw [List.getD_eq_getElem?_getD (l.set c v) j, List.getElem?_set,
    if_neg (fun hc => h hc.symm), ← List.getD_eq_getElem?_getD]

/-- Writing outside the matrix is a no-op. -/
theorem setX_oob {X : Mat} {r c : ℕ} (v : ℤ)
    (h : ¬(r < X.length ∧ c < (X.getD r []).length)) : setX X r c v = X := by
  unfold setX
  by_cases hr : r < X.length
  · have hc : (X.getD r []).length ≤ c := by
      rcases Nat.lt_or_ge c (X.getD r []).length with h1 | h1
      · exact absurd ⟨hr, h1⟩ h
      · exact h1
    rw [List.set_eq_of_length_le hc]
    apply List.ext_getElem?
    intro n
    rw [List.getElem?_set]
    by_cases hn : r = n
    · subst hn
      rw [if_pos rfl, if_pos hr, List.getElem?_eq_getElem hr]
      congr 1
      rw [List.getD_eq_getElem?_getD, List.getElem?_eq_getElem hr]
      rfl
    · rw [if_neg hn]
  · rw [List.set_eq_of_length_le (Nat.le_of_not_lt hr)]

/-- A matrix write keeps the number of rows. -/
theorem length_setX (X : Mat) (r c : ℕ) (v : ℤ) : (setX X r c v).length = X.length :=
  List.length_set ..

/-- A matrix write keeps every row length. -/
theorem rowlen_setX (X : Mat) (r c : ℕ) (v : ℤ) (i : ℕ) :
    ((setX X r c v).getD i []).length = ((X.getD i []).length) := by
  unfold setX
  by_cases hr : r = i
  · subst hr
    by_cases h : r < X.length
    · rw [getD_set_row_eq _ h, List.length_set]
    · rw [List.set_eq_of_length_le (Nat.le_of_not_lt h)]
  · rw [getD_set_row_ne _ hr]

/-- A row broadcast keeps the number of rows. -/
theorem length_setRow (X : Mat) (r : ℕ) (v : ℤ) : (setRow X r v).length = X.length :=
  List.length_set ..

/-- A row broadcast keeps every row length. -/
theorem rowlen_setRow (X : Mat) (r : ℕ) (v : ℤ) (i : ℕ) :
    ((setRow X r v).getD i []).length = ((X.getD i []).length) := by
  unfold setRow
  by_cases hr : r = i
  · subst hr
    by_cases h : r < X.length
    · rw [getD_set_row_eq _ h, List.length_map]
    · rw [List.set_eq_of_length_le (Nat.le_of_not_lt h)]
  · rw [getD_set_row_ne _ hr]

/-- Reading back an in-range matrix write. -/
theorem readX_setX_eq {X : Mat} {r c : ℕ} (v : ℤ) (h1 : r < X.length)
    (h2 : c < (X.getD r []).length) : readX (setX X r c v) r c = v := by
  unfold readX setX
  rw [getD_set_row_eq _ h1, getD_cell_eq _ h2]

/-- A matrix write leaves every other entry unchanged. -/
theorem readX_setX_ne {X : Mat} {r c : ℕ} (v : ℤ) {i j : ℕ} (h : ¬(i = r ∧ j = c)) :
    readX (setX X r c v) i j = readX X i j := by
  unfold readX setX
  by_cases hr : r = i
  · subst hr
    have hj : ¬ j = c := fun hc => h ⟨rfl, hc⟩
    by_cases hlen : r < X.length
    · rw [getD_set_row_eq _ hlen, getD_cell_ne _ hj]
    · rw [List.set_eq_of_length_le (Nat.le_of_not_lt hlen)]
  · rw [getD_set_row_ne _ hr]

/-- Effect of a single matrix write on a row sum. -/
theorem rowSum_setX (M : ℕ) (X : Mat) (r c : ℕ) (v : ℤ) (hc : c < M + 1) (i : ℕ) :
    rowSum M (setX X r c v) i =
      rowSum M X i +
        (if i = r ∧ r < X.length ∧ c < (X.getD r []).length then v - readX X r c else 0) := by
  by_cases hcond : i = r ∧ r < X.length ∧ c < (X.getD r []).length
  · obtain ⟨hir, hrl, hcl⟩ := hcond
    subst hir
    rw [if_pos ⟨rfl, hrl, hcl⟩]
    unfold rowSum
    have hmem : c ∈ Finset.range (M + 1) := Finset.mem_range.mpr hc
    rw [Finset.sum_eq_sum_diff_singleton_add hmem,
      Finset.sum_eq_sum_diff_singleton_add hmem (fun j => readX X i j)]
    rw [readX_setX_eq v hrl hcl]
    have hcong : ∀ j ∈ Finset.range (M + 1) \ {c}, readX (setX X i c v) i j = readX X i j := by
      intro j hj
      have hne : j ≠ c := by simpa using (Finset.mem_sdiff.mp hj).2
      exact readX_setX_ne v (fun hh => hne hh.2)
    rw [Finset.sum_congr rfl hcong]
    ring
  · rw [if_neg hcond]
    by_cases hir : i = r
    · subst hir
      rw [setX_oob v (fun hh => hcond ⟨rfl, hh⟩), add_zero]
    · have hcong : ∀ j ∈ Finset.range (M + 1), readX (setX X r c v) i j = readX X i j :=
        fun j _ => readX_setX_ne v (fun hh => hir hh.1)
      unfold rowSum
      rw [Finset.sum_congr rfl hcong, add_zero]

/-- The owner returned by the `find_agent` scan is a real agent index. -/
theorem find_agent_go_some_lt (X : Mat) (agents : List BaseAgent) (N cur last : ℕ) :
    ∀ (l : List ℕ) (a : ℕ),
      find_agent_go X agents N cur last l = .ok (some a) → a < agents.length := by
  intro l
  induction l with
  | nil =>
    intro a h
    rw [find_agent_go] at h
    exact absurd h (by simp)
  | cons o rest ih =>
    intro a h
    rw [find_agent_go] at h
    split_ifs at h with ho hex
    · rw [Except.ok.injEq, Option.some.injEq] at h
      subst h
      exact ho
    · exact ih a h

/-- The owner returned by `find_agent` is a real agent index. -/
theorem find_agent_some_lt {X : Mat} {agents : List BaseAgent} {N cur last a : ℕ}
    (h : find_agent X agents N cur last = .ok (some a)) : a < agents.length :=
  find_agent_go_some_lt X agents N cur last _ a h

/-- Row-length stability is preserved by a write. -/
theorem wf_setX {X : Mat} {M : ℕ} (r c : ℕ) (v : ℤ)
    (h : ∀ i, i < X.length → (X.getD i []).length = M + 1) :
    ∀ i, i < (setX X r c v).length → ((setX X r c v).getD i []).length = M + 1 := by
  intro i hi
  rw [rowlen_setX]
  rw [length_setX] at hi
  exact h i hi

/-- The `update_allocation` walk, under its per-step success conditions,
terminates normally and changes every row sum by exactly the +1 granted at
the item nearest the sink (the head of the reversed path), all other row
effects telescoping away. -/
theorem uaLoop_ok_rowSum (agents : List BaseAgent) (N agent_picked : ℕ)
    (hpick : agent_picked < agents.length) :
    ∀ (p : List ℕ) (X : Mat),
      (∀ i, i < X.length → (X.getD i []).length = agents.length + 1) →
      okLoop agents N agent_picked X p = true →
      ∃ X2 inv, uaLoop agents N agent_picked X p = .ok (X2, inv) ∧
        (∀ i, rowSum agents.length X2 i =
          rowSum agents.length X i +
            (if p.head? = some i ∧ i < X.length then 1 else 0)) := by
  intro p
  induction p with
  | nil =>
    intro X hwf hok
    refine ⟨X, [], rfl, fun i => ?_⟩
    simp
  | cons last tail ih =>
    intro X hwf hok
    cases tail with
    | nil =>
      rw [okLoop, decide_eq_true_eq] at hok
      refine ⟨setX X last agent_picked 1, [], rfl, fun i => ?_⟩
      rw [rowSum_setX _ _ _ _ _ (Nat.lt_succ_of_lt hpick)]
      by_cases hl : last < X.length
      · have hrow : (X.getD last []).length = agents.length + 1 := hwf last hl
        have hcol : agent_picked < (X.getD last []).length := by omega
        by_cases hi : i = last
        · subst hi
          rw [if_pos ⟨rfl, hl, hcol⟩, hok, if_pos ⟨rfl, hl⟩]
          ring
        · rw [if_neg (fun hh => hi hh.1), if_neg (fun hh => hi (Option.some.injEq .. |>.mp hh.1).symm)]
      · rw [if_neg (fun hh => absurd hh.2.1 (by omega)),
          if_neg (fun hh => absurd hh.2 (by rw [(Option.some.injEq .. |>.mp hh.1)] at hl; exact hl))]
    | cons next rest =>
      rw [okLoop] at hok
      rcases hfa : find_agent X agents N next last with e | oa
      · rw [hfa] at hok
        exact absurd hok (by simp)
      · rcases oa with _ | a
        · rw [hfa] at hok
          exact absurd hok (by simp)
        · rw [hfa, Bool.and_eq_true, Bool.and_eq_true, decide_eq_true_eq, decide_eq_true_eq]
            at hok
          obtain ⟨⟨h1, h2⟩, h3⟩ := hok
          have ha : a < agents.length := find_agent_some_lt hfa
          have hnl : next ≠ last := by
            intro hh
            rw [hh, h2] at h1
            exact absurd h1 (by norm_num)
          obtain ⟨hnextlen, hacol⟩ := readX_ne_zero_bounds (by rw [h1]; norm_num :
            readX X next a ≠ 0)
          set X1 := setX (setX X last a 1) next a 0 with hX1
          have hwf1 : ∀ i, i < X1.length → (X1.getD i []).length = agents.length + 1 :=
            wf_setX _ _ _ (wf_setX _ _ _ hwf)
          obtain ⟨X2, inv, hrec, hsum⟩ := ih X1 hwf1 h3
          refine ⟨X2, some a :: inv, ?_, fun i => ?_⟩
          · simp only [uaLoop, hfa, ← hX1, hrec]
          · rw [hsum i]
            have hX1len : X1.length = X.length := by
              rw [hX1, length_setX, length_setX]
            have e2 : rowSum agents.length X1 i =
                rowSum agents.length (setX X last a 1) i +
                  (if i = next then -1 else 0) := by
              rw [hX1, rowSum_setX _ _ _ _ _ (Nat.lt_succ_of_lt ha)]
              congr 1
              by_cases hi : i = next
              · subst hi
                rw [if_pos ⟨rfl, by rw [length_setX]; exact hnextlen,
                    by rw [rowlen_setX]; exact hacol⟩,
                  readX_setX_ne _ (fun hh => hnl hh.1), h1]
                simp
              · rw [if_neg (fun hh => hi hh.1), if_neg hi]
            have e1 : rowSum agents.length (setX X last a 1) i =
                rowSum agents.length X i +
                  (if i = last ∧ last < X.length then 1 else 0) := by
              rw [rowSum_setX _ _ _ _ _ (Nat.lt_succ_of_lt ha)]
              congr 1
              by_cases hi : i = last
              · subst hi
                by_cases hl : i < X.length
                · rw [if_pos ⟨rfl, hl, by rw [hwf i hl]; omega⟩, h2, if_pos ⟨rfl, hl⟩]
                  norm_num
                · rw [if_neg (fun hh => hl hh.2.1), if_neg (fun hh => hl hh.2)]
              · rw [if_neg (fun hh => hi hh.1), if_neg (fun hh => hi hh.1)]
            rw [e2, e1]
            simp only [List.head?_cons, hX1len, Option.some.injEq]
            clear ih hrec h3 hwf1 hfa hwf e1 e2 hsum
            split_ifs <;> omega

/-- Row sums of the freshly initialised allocation matrix are the item
capacities. -/
theorem init_rowSum (caps : List ℤ) (M : ℕ) (i : ℕ) :
    rowSum M (init_allocation_matrix caps M) i = caps.getD i 0 := by
  unfold rowSum
  by_cases hi : i < caps.length
  · have hrow : (init_allocation_matrix caps M).getD i [] =
        List.replicate M 0 ++ [caps.getD i 0] := by
      unfold init_allocation_matrix
      rw [List.getD_eq_getElem?_getD, List.getElem?_map, List.getElem?_eq_getElem hi]
      simp [List.getD_eq_getElem?_getD, List.getElem?_eq_getElem hi]
    have hentry : ∀ j ∈ Finset.range (M + 1), readX (init_allocation_matrix caps M) i j =
        if j = M then caps.getD i 0 else 0 := by
      intro j hj
      rw [Finset.mem_range] at hj
      unfold readX
      rw [hrow]
      by_cases hjM : j = M
      · subst hjM
        rw [List.getD_eq_getElem?_getD, List.getElem?_append, if_neg (by simp), if_pos rfl]
        simp
      · have hjM' : j < M := by omega
        rw [List.getD_eq_getElem?_getD, List.getElem?_append,
          if_pos (by simpa using hjM'), if_neg hjM]
        simp [List.getElem?_replicate, hjM']
    rw [Finset.sum_congr rfl hentry, Finset.sum_ite_eq' (Finset.range (M + 1)) M
      (fun _ => caps.getD i 0)]
    simp
  · have hrow : (init_allocation_matrix caps M).getD i [] = [] := by
      unfold init_allocation_matrix
      exact List.getD_eq_default _ _ (by simpa using Nat.le_of_not_lt hi)
    have hz : caps.getD i 0 = 0 := List.getD_eq_default _ _ (Nat.le_of_not_lt hi)
    rw [hz]
    refine Finset.sum_eq_zero fun j _ => ?_
    unfold readX
    rw [hrow]
    simp

/-- Claim C2 (confirmed): `initialize_allocation_matrix` establishes the
row-sum invariant `Σ_j X[i,j] + X[i,M] = capacity(i)`, and
`update_allocation`, applied to a path `[s, i1, ..., ik, t]` of distinct
items in which each willing owner found owns the item it gives up and does
not already hold the item it receives (and the picked agent does not yet
hold the item it receives), leaves every row sum of `X` unchanged — so the
engine's outer iterations, whose only matrix writes happen here, preserve
the invariant. -/
theorem C2_row_sums (caps : List ℤ) (Minit : ℕ) (X : Mat) (agents : List BaseAgent)
    (N : ℕ) (path_og : List ℕ) (agent_picked : ℕ)
    (hwf : ∀ i, i < X.length → (X.getD i []).length = agents.length + 1)
    (hpick : agent_picked < agents.length)
    (hdist : ((path_og.drop 1).dropLast).Nodup)
    (hok : okPath X agents N path_og agent_picked = true) :
    (∀ i, rowSum Minit (init_allocation_matrix caps Minit) i = caps.getD i 0) ∧
    ∃ X2 inv, update_allocation X agents N path_og agent_picked = .ok (X2, inv) ∧
      ∀ i, rowSum agents.length X2 i = rowSum agents.length X i := by
  refine ⟨init_rowSum caps Minit, ?_⟩
  rw [okPath] at hok
  rcases hlast : ((path_og.drop 1).dropLast).getLast? with _ | lastI
  · rw [hlast] at hok
    exact absurd hok (by simp)
  · rw [hlast] at hok
    set M := agents.length with hM
    set X1 := setX X lastI M (readX X lastI M - 1) with hX1
    have hwf1 : ∀ i, i < X1.length → (X1.getD i []).length = M + 1 := wf_setX _ _ _ hwf
    obtain ⟨X2, inv, hrec, hsum⟩ :=
      uaLoop_ok_rowSum agents N agent_picked hpick ((path_og.drop 1).dropLast).reverse X1
        hwf1 hok
    refine ⟨X2, some agent_picked :: inv, ?_, fun i => ?_⟩
    · simp only [update_allocation, hlast, ← hX1, ← hM, hrec]
    · rw [hsum i, List.head?_reverse, hlast]
      have hX1len : X1.length = X.length := length_setX ..
      have hdec : rowSum M X1 i =
          rowSum M X i + (if i = lastI ∧ lastI < X.length then -1 else 0) := by
        rw [hX1, rowSum_setX M X lastI M _ (Nat.lt_succ_self M)]
        congr 1
        by_cases hi : i = lastI
        · subst hi
          by_cases hl : i < X.length
          · rw [if_pos ⟨rfl, hl, by rw [hwf i hl]; omega⟩, if_pos ⟨rfl, hl⟩]
            ring
          · rw [if_neg (fun hh => hl hh.2.1), if_neg (fun hh => hl hh.2)]
        · rw [if_neg (fun hh => hi hh.1), if_neg (fun hh => hi hh.1)]
      rw [hdec, hX1len]
      simp only [Option.some.injEq]
      split_ifs <;> omega

/-- Witness for claim C2 on a concrete two-item, two-agent instance: the
picked agent 1 takes item 0 from agent 0, who is compensated from item 1's
slack; every row sum is unchanged. -/
theorem C2_witness :
    (∀ i, i < XC5.length → (XC5.getD i []).length = agsC2.length + 1) ∧
    (1 < agsC2.length) ∧
    ((([3, 0, 1, 2] : List ℕ).drop 1).dropLast).Nodup ∧
    okPath XC5 agsC2 2 [3, 0, 1, 2] 1 = true ∧
    ((∀ i, rowSum 2 (init_allocation_matrix [1, 1] 2) i = ([1, 1] : List ℤ).getD i 0) ∧
     ∃ X2 inv, update_allocation XC5 agsC2 2 [3, 0, 1, 2] 1 = .ok (X2, inv) ∧
       ∀ i, rowSum agsC2.length X2 i = rowSum agsC2.length XC5 i) :=
  ⟨by decide, by decide, by decide, by decide,
    C2_row_sums [1, 1] 2 XC5 agsC2 2 [3, 0, 1, 2] 1 (by decide) (by decide) (by decide)
      (by decide)⟩

/-- Membership of the last element: extracted from `getLast?` via the
reversed head. -/
theorem getLast?_some_mem {l : List ℕ} {a : ℕ} (h : l.getLast? = some a) : a ∈ l := by
  rw [List.getLast?_eq_head?_reverse] at h
  exact (List.mem_reverse).mp (List.mem_of_mem_head? h)

/-- Frame property of the `update_allocation` while loop on a successful
run: rows off the path are untouched, the slack column is untouched, and
agent columns other than the picked agent and the owners recorded in
`agents_involved` are untouched. -/
theorem uaLoop_ok_frame (agents : List BaseAgent) (N agent_picked : ℕ)
    (hpick : agent_picked < agents.length) :
    ∀ (p : List ℕ) (X : Mat),
      okLoop agents N agent_picked X p = true →
      ∃ X2 inv, uaLoop agents N agent_picked X p = .ok (X2, inv) ∧
        (∀ i, i ∉ p → ∀ j, readX X2 i j = readX X i j) ∧
        (∀ i, readX X2 i agents.length = readX X i agents.length) ∧
        (∀ j, j ≠ agent_picked → some j ∉ inv → ∀ i, readX X2 i j = readX X i j) := by
  intro p
  induction p with
  | nil =>
    intro X hok
    exact ⟨X, [], rfl, fun i _ j => rfl, fun i => rfl, fun j _ _ i => rfl⟩
  | cons last tail ih =>
    intro X hok
    cases tail with
    | nil =>
      refine ⟨setX X last agent_picked 1, [], rfl, fun i hi j => ?_, fun i => ?_,
        fun j hj _ i => ?_⟩
      · have hne : i ≠ last := by simpa using hi
        exact readX_setX_ne _ (fun hh => hne hh.1)
      · exact readX_setX_ne _ (fun hh => absurd hh.2 (by omega))
      · exact readX_setX_ne _ (fun hh => hj hh.2)
    | cons next rest =>
      rw [okLoop] at hok
      rcases hfa : find_agent X agents N next last with e | oa
      · rw [hfa] at hok
        exact absurd hok (by simp)
      · rcases oa with _ | a
        · rw [hfa] at hok
          exact absurd hok (by simp)
        · rw [hfa, Bool.and_eq_true, Bool.and_eq_true] at hok
          obtain ⟨⟨_, _⟩, h3⟩ := hok
          have ha : a < agents.length := find_agent_some_lt hfa
          set X1 := setX (setX X last a 1) next a 0 with hX1
          obtain ⟨X2, inv, hrec, hA, hB, hC⟩ := ih X1 h3
          refine ⟨X2, some a :: inv, ?_, fun i hi j => ?_, fun i => ?_, fun j hj hmem i => ?_⟩
          · simp only [uaLoop, hfa, ← hX1, hrec]
          · have hil : i ≠ last := fun hh => hi (by rw [hh]; exact List.mem_cons_self ..)
            have hin : i ∉ next :: rest := fun hh => hi (List.mem_cons_of_mem _ hh)
            have hinx : i ≠ next := fun hh => hin (by rw [hh]; exact List.mem_cons_self ..)
            rw [hA i hin j, hX1, readX_setX_ne _ (fun hh => hinx hh.1),
              readX_setX_ne _ (fun hh => hil hh.1)]
          · rw [hB i, hX1, readX_setX_ne _ (fun hh => absurd hh.2 (by omega)),
              readX_setX_ne _ (fun hh => absurd hh.2 (by omega))]
          · simp only [List.mem_cons, not_or] at hmem
            have hja : j ≠ a := fun hh => hmem.1 (by rw [hh])
            rw [hC j hj hmem.2 i, hX1, readX_setX_ne _ (fun hh => hja hh.2),
              readX_setX_ne _ (fun hh => hja hh.2)]

/-- Claim C10 (confirmed): on a successful run, `update_allocation` on a
path `[s, i1, ..., ik, t]` only modifies the rows of the intermediate
items `i1..ik`; the slack column changes only in row `ik`, where it drops
by exactly one, and every agent column outside the returned
`agents_involved` list is unchanged. -/
theorem C10_frame (X : Mat) (agents : List BaseAgent) (N : ℕ) (path_og : List ℕ)
    (agent_picked lastI : ℕ)
    (hwf : ∀ i, i < X.length → (X.getD i []).length = agents.length + 1)
    (hpick : agent_picked < agents.length)
    (hlast : ((path_og.drop 1).dropLast).getLast? = some lastI)
    (hlen : lastI < X.length)
    (hok : okPath X agents N path_og agent_picked = true) :
    ∃ X2 inv,
      update_allocation X agents N path_og agent_picked = .ok (X2, some agent_picked :: inv) ∧
      (∀ i, i ∉ (path_og.drop 1).dropLast → ∀ j, readX X2 i j = readX X i j) ∧
      (∀ i, i ≠ lastI → readX X2 i agents.length = readX X i agents.length) ∧
      readX X2 lastI agents.length = readX X lastI agents.length - 1 ∧
      (∀ j, j ≠ agents.length → some j ∉ (some agent_picked :: inv) →
        ∀ i, readX X2 i j = readX X i j) := by
  rw [okPath, hlast] at hok
  set M := agents.length with hM
  set X1 := setX X lastI M (readX X lastI M - 1) with hX1
  obtain ⟨X2, inv, hrec, hA, hB, hC⟩ :=
    uaLoop_ok_frame agents N agent_picked hpick ((path_og.drop 1).dropLast).reverse X1 hok
  have hcolM : M < (X.getD lastI []).length := by rw [hwf lastI hlen]; omega
  refine ⟨X2, inv, ?_, fun i hi j => ?_, fun i hi => ?_, ?_, fun j hjM hmem i => ?_⟩
  · simp only [update_allocation, hlast, ← hX1, ← hM, hrec]
  · have hil : i ≠ lastI := fun hh => hi (by rw [hh]; exact getLast?_some_mem hlast)
    rw [hA i (fun hh => hi ((List.mem_reverse).mp hh)) j, hX1,
      readX_setX_ne _ (fun hh => hil hh.1)]
  · rw [hB i, hX1, readX_setX_ne _ (fun hh => hi hh.1)]
  · rw [hB lastI, hX1, readX_setX_eq _ hlen hcolM]
  · simp only [List.mem_cons, not_or] at hmem
    have hjp : j ≠ agent_picked := fun hh => hmem.1 (by rw [hh])
    rw [hC j hjp hmem.2 i, hX1, readX_setX_ne _ (fun hh => hjM hh.2)]

/-- Witness for claim C10 on the concrete two-item, two-agent instance of
claim C2: rows off the path, the slack entry of item 0 and the columns of
uninvolved agents are unchanged, and item 1 loses exactly one unit of
slack. -/
theorem C10_witness :
    (∀ i, i < XC5.length → (XC5.getD i []).length = agsC2.length + 1) ∧
    (1 < agsC2.length) ∧
    (((([3, 0, 1, 2] : List ℕ).drop 1).dropLast).getLast? = some 1) ∧
    (1 < XC5.length) ∧
    okPath XC5 agsC2 2 [3, 0, 1, 2] 1 = true ∧
    (∃ X2 inv,
      update_allocation XC5 agsC2 2 [3, 0, 1, 2] 1 = .ok (X2, some 1 :: inv) ∧
      (∀ i, i ∉ (([3, 0, 1, 2] : List ℕ).drop 1).dropLast →
        ∀ j, readX X2 i j = readX XC5 i j) ∧
      (∀ i, i ≠ 1 → readX X2 i agsC2.length = readX XC5 i agsC2.length) ∧
      readX X2 1 agsC2.length = readX XC5 1 agsC2.length - 1 ∧
      (∀ j, j ≠ agsC2.length → some j ∉ (some 1 :: inv) →
        ∀ i, readX X2 i j = readX XC5 i j)) :=
  ⟨by decide, by decide, by decide, by decide, by decide,
    C10_frame XC5 agsC2 2 [3, 0, 1, 2] 1 1 (by decide) (by decide) (by decide) (by decide)
      (by decide)⟩

/-- `find?` by key commutes with a key-preserving map. -/
theorem find?_map_keyfix (G : Graph) (f : ℕ × List ℕ → ℕ × List ℕ)
    (hf : ∀ p, (f p).1 = p.1) (w : ℕ) :
    (G.map f).find? (fun p => p.1 == w) = (G.find? fun p => p.1 == w).map f := by
  induction G with
  | nil => rfl
  | cons p G ih =>
    rw [List.map_cons]
    by_cases h : (p.1 == w) = true
    · rw [@List.find?_cons_of_pos _ (fun q => q.1 == w) (f p) (List.map f G)
          (show ((f p).1 == w) = true by rw [hf]; exact h),
        @List.find?_cons_of_pos _ (fun q => q.1 == w) p G h]
      rfl
    · rw [@List.find?_cons_of_neg _ (fun q => q.1 == w) (f p) (List.map f G)
          (show ¬ ((f p).1 == w) = true by rw [hf]; exact h),
        @List.find?_cons_of_neg _ (fun q => q.1 == w) p G h, ih]

/-- `find?` by key skips entries removed by a filter on another key. -/
theorem find?_filter_ne (G : Graph) (u w : ℕ) (hw : w ≠ u) :
    (G.filter fun p => p.1 != u).find? (fun p => p.1 == w) = G.find? fun p => p.1 == w := by
  induction G with
  | nil => rfl
  | cons p G ih =>
    by_cases h : (p.1 == w) = true
    · have hpu : (p.1 != u) = true := by
        rw [bne_iff_ne]
        rw [beq_iff_eq] at h
        rw [h]
        exact hw
      rw [@List.filter_cons_of_pos _ (fun q => q.1 != u) p G hpu,
        @List.find?_cons_of_pos _ (fun q => q.1 == w) p (G.filter fun q => q.1 != u) h,
        @List.find?_cons_of_pos _ (fun q => q.1 == w) p G h]
    · by_cases hpu : (p.1 != u) = true
      · rw [@List.filter_cons_of_pos _ (fun q => q.1 != u) p G hpu,
          @List.find?_cons_of_neg _ (fun q => q.1 == w) p (G.filter fun q => q.1 != u) h,
          @List.find?_cons_of_neg _ (fun q => q.1 == w) p G h, ih]
      · rw [@List.filter_cons_of_neg _ (fun q => q.1 != u) p G hpu,
          @List.find?_cons_of_neg _ (fun q => q.1 == w) p G h, ih]

/-- A found entry satisfies the key predicate. -/
theorem find?_key_eq {G : Graph} {w : ℕ} {e : ℕ × List ℕ}
    (h : (G.find? fun p => p.1 == w) = some e) : e.1 = w := by
  have := List.find?_some h
  rwa [beq_iff_eq] at this

/-- `add_node` never changes any successor list. -/
theorem gSucc_addNode (G : Graph) (u w : ℕ) : gSucc (addNode G u) w = gSucc G w := by
  unfold addNode
  split
  · rfl
  · unfold gSucc
    rw [List.find?_append]
    cases hf : G.find? fun p => p.1 == w with
    | some e => rfl
    | none =>
      by_cases h : ((u, ([] : List ℕ)).1 == w) = true
      · rw [@List.find?_cons_of_pos _ (fun q => q.1 == w) (u, []) [] h]
        rfl
      · rw [@List.find?_cons_of_neg _ (fun q => q.1 == w) (u, []) [] h]
        rfl

/-- Successor lists after `add_edge`: the source gains the target unless
already present, everything else is untouched. -/
theorem gSucc_addEdge (G : Graph) (a b w : ℕ) :
    gSucc (addEdge G a b) w =
      if w = a then (if b ∈ gSucc G a then gSucc G a else gSucc G a ++ [b])
      else gSucc G w := by
  unfold addEdge
  by_cases hpres : (G.find? fun p => p.1 == a).isSome = true
  · rw [if_pos hpres]
    unfold gSucc
    rw [find?_map_keyfix _ _ (fun p => by split <;> rfl)]
    by_cases hw : w = a
    · subst hw
      rw [if_pos rfl]
      cases hf : G.find? fun p => p.1 == w with
      | none =>
        rw [hf] at hpres
        exact absurd hpres (by simp)
      | some e =>
        have hkey : e.1 = w := find?_key_eq hf
        simp only [Option.map_some', Option.getD_some]
        rw [if_pos (show (e.1 == w) = true by rw [beq_iff_eq]; exact hkey)]
    · rw [if_neg hw]
      cases hf : G.find? fun p => p.1 == w with
      | none => rfl
      | some e =>
        have hkey : e.1 = w := find?_key_eq hf
        simp only [Option.map_some', Option.getD_some]
        rw [if_neg (show ¬ (e.1 == a) = true by rw [beq_iff_eq, hkey]; exact hw)]
  · rw [if_neg hpres]
    have hnone : (G.find? fun p => p.1 == a) = none := by
      cases hg : G.find? fun p => p.1 == a with
      | none => rfl
      | some e => rw [hg] at hpres; exact absurd (by simp) hpres
    unfold gSucc
    rw [List.find?_append]
    by_cases hw : w = a
    · subst hw
      rw [if_pos rfl, hnone,
        @List.find?_cons_of_pos _ (fun q => q.1 == w) (w, [b]) [] (by rw [beq_iff_eq])]
      simp
    · rw [if_neg hw]
      cases hf : G.find? fun p => p.1 == w with
      | some e => rfl
      | none =>
        rw [@List.find?_cons_of_neg _ (fun q => q.1 == w) (a, [b]) []
            (by rw [beq_iff_eq]; exact fun hh => hw hh.symm)]
        rfl

/-- Successor lists after `remove_edge`: the target is erased from the
source's list, everything else is untouched. -/
theorem gSucc_removeEdge (G : Graph) (a b w : ℕ) :
    gSucc (removeEdge G a b) w = if w = a then (gSucc G a).erase b else gSucc G w := by
  unfold removeEdge gSucc
  rw [find?_map_keyfix _ _ (fun p => by split <;> rfl)]
  by_cases hw : w = a
  · subst hw
    rw [if_pos rfl]
    cases hf : G.find? fun p => p.1 == w with
    | none => rfl
    | some e =>
      have hkey : e.1 = w := find?_key_eq hf
      simp only [Option.map_some', Option.getD_some]
      rw [if_pos (show (e.1 == w) = true by rw [beq_iff_eq]; exact hkey)]
  · rw [if_neg hw]
    cases hf : G.find? fun p => p.1 == w with
    | none => rfl
    | some e =>
      have hkey : e.1 = w := find?_key_eq hf
      simp only [Option.map_some', Option.getD_some]
      rw [if_neg (show ¬ (e.1 == a) = true by rw [beq_iff_eq, hkey]; exact hw)]

/-- Successor lists after `remove_node`: the removed node loses its list
and is erased from every other list. -/
theorem gSucc_removeNode (G : Graph) (u w : ℕ) :
    gSucc (removeNode G u) w = if w = u then [] else (gSucc G w).erase u := by
  unfold removeNode gSucc
  rw [find?_map_keyfix (G.filter fun p => p.1 != u) (fun p => (p.1, p.2.erase u))
    (fun p => rfl) w]
  by_cases hw : w = u
  · subst hw
    rw [if_pos rfl]
    rw [List.find?_eq_none.mpr]
    · rfl
    · intro p hp
      have := List.of_mem_filter hp
      rw [bne_iff_ne] at this
      rw [Bool.not_eq_true, beq_eq_false_iff_ne]
      exact this
  · rw [if_neg hw, find?_filter_ne _ _ _ hw]
    cases hf : G.find? fun p => p.1 == w with
    | none => rfl
    | some e => rfl

/-- A property of graphs preserved by every step of a fold is preserved by
the whole fold. -/
theorem foldl_graph_pres {α : Type} (Q : Graph → Prop) (step : Graph → α → Graph)
    (hstep : ∀ Gc x, Q Gc → Q (step Gc x)) :
    ∀ (l : List α) (G0 : Graph), Q G0 → Q (l.foldl step G0) := by
  intro l
  induction l with
  | nil => exact fun G0 h => h
  | cons x l ih => exact fun G0 h => ih _ (hstep G0 x h)

/-- A forward chain restricted to its tail is still a chain. -/
theorem fwdPath_tail (G : Graph) (x : ℕ) (xs : List ℕ) (h : fwdPath G (x :: xs) = true) :
    fwdPath G xs = true := by
  cases xs with
  | nil => rfl
  | cons y ys =>
    rw [fwdPath, Bool.and_eq_true] at h
    exact h.2

/-- Extending a forward chain by one node checks one edge from the old
last element. -/
theorem fwdPath_snoc (G : Graph) (a : ℕ) :
    ∀ l, fwdPath G (l ++ [a]) =
      (fwdPath G l &&
        match l.getLast? with
        | none => true
        | some b => hasEdge G b a) := by
  intro l
  induction l with
  | nil => rfl
  | cons x xs ih =>
    cases xs with
    | nil => simp [fwdPath]
    | cons y ys =>
      simp only [List.cons_append] at ih ⊢
      rw [fwdPath, ih, List.getLast?_cons_cons, fwdPath, Bool.and_assoc]

/-- A reversed queue entry is a chain exactly when its reversal is a
forward chain. -/
theorem revPath_reverse (G : Graph) : ∀ p, fwdPath G p.reverse = revPath G p := by
  intro p
  induction p with
  | nil => rfl
  | cons a p ih =>
    cases p with
    | nil => rfl
    | cons b rest =>
      rw [List.reverse_cons, fwdPath_snoc, ih, List.getLast?_reverse, revPath]
      rw [show (b :: rest).head? = some b from rfl]
      rw [Bool.and_comm]

/-- Any path returned by the BFS of `find_shortest_path` is a genuine
reversed chain of graph edges from the start node, ending at the target,
and visits the target only once. -/
theorem bfsAux_valid (G : Graph) (target start : ℕ) :
    ∀ fuel queue visited r,
      (∀ p ∈ queue, p ≠ [] ∧ revPath G p = true ∧ target ∉ p.drop 1 ∧
        p.getLast? = some start) →
      bfsAux G target fuel queue visited = some r →
      ∃ p, r = p.reverse ∧ revPath G p = true ∧ p.head? = some target ∧
        target ∉ p.drop 1 ∧ p.getLast? = some start := by
  intro fuel
  induction fuel with
  | zero =>
    intro queue visited r hq h
    rw [bfsAux] at h
    exact absurd h (by simp)
  | succ fuel ih =>
    intro queue visited r hq h
    cases queue with
    | nil =>
      rw [bfsAux] at h
      exact absurd h (by simp)
    | cons p rest =>
      obtain ⟨hne, hrev, htgt, hlast⟩ := hq p (List.mem_cons_self ..)
      cases p with
      | nil => exact absurd rfl hne
      | cons u ptail =>
        rw [bfsAux] at h
        by_cases hu : u = target
        · rw [if_pos hu] at h
          rw [Option.some.injEq] at h
          exact ⟨u :: ptail, h.symm, hrev, by rw [hu]; rfl, htgt, hlast⟩
        · rw [if_neg hu] at h
          refine ih _ _ r ?_ h
          intro q hq2
          rw [List.mem_append] at hq2
          rcases hq2 with hq2 | hq2
          · exact hq q (List.mem_cons_of_mem _ hq2)
          · rw [List.mem_map] at hq2
            obtain ⟨v, hv, rfl⟩ := hq2
            have hvsucc : v ∈ gSucc G u := (List.mem_filter.mp hv).1
            refine ⟨by simp, ?_, ?_, ?_⟩
            · rw [revPath, Bool.and_eq_true]
              exact ⟨decide_eq_true hvsucc, hrev⟩
            · show target ∉ u :: ptail
              rw [List.mem_cons, not_or]
              exact ⟨fun hh => hu hh.symm, htgt⟩
            · rw [List.getLast?_cons_cons]
              exact hlast

/-- Validity of `find_shortest_path`: a returned path starts at the start
node, ends at the target, is a chain of graph edges, and does not visit
the target before its last element. -/
theorem fsp_valid {G : Graph} {start targ fuel : ℕ} {r : List ℕ}
    (h : find_shortest_path G start targ fuel = some r) :
    r.head? = some start ∧ r.getLast? = some targ ∧ fwdPath G r = true ∧
      targ ∉ r.dropLast := by
  obtain ⟨p, rfl, hrev, hhead, htgt, hlast⟩ :=
    bfsAux_valid G targ start fuel [[start]] [start] r
      (fun q hq => by
        rw [List.mem_singleton] at hq
        subst hq
        exact ⟨by simp, rfl, by simp, rfl⟩) h
  refine ⟨?_, ?_, ?_, ?_⟩
  · rw [List.head?_reverse]
    exact hlast
  · rw [List.getLast?_reverse]
    exact hhead
  · rw [revPath_reverse]
    exact hrev
  · rw [List.dropLast_reverse]
    intro hmem
    rw [List.mem_reverse] at hmem
    rw [← List.drop_one] at hmem
    exact htgt hmem

/-- A property of graphs preserved by every step of a fold over a given
list is preserved by the whole fold. -/
theorem foldl_graph_pres_mem {α : Type} (Q : Graph → Prop) (step : Graph → α → Graph)
    (l : List α) (hstep : ∀ Gc x, x ∈ l → Q Gc → Q (step Gc x)) :
    ∀ G0, Q G0 → Q (l.foldl step G0) := by
  induction l with
  | nil => exact fun G0 h => h
  | cons x l ih =>
    exact fun G0 h =>
      ih (fun Gc y hy => hstep Gc y (List.mem_cons_of_mem _ hy)) _
        (hstep G0 x (List.mem_cons_self ..) h)

/-- `list(set(..))` only returns elements of its input. -/
theorem pySetList_subset (l : List ℕ) : ∀ x ∈ pySetList l, x ∈ l := by
  intro x hx
  unfold pySetList at hx
  exact of_decide_eq_true (List.mem_filter.mp hx).2

/-- An element of an accumulating append-fold comes from the accumulator
or from one of the appended lists. -/
theorem foldl_append_mem (d : ℕ → List ℕ) :
    ∀ (idxs : List ℕ) (acc : List ℕ) (x : ℕ),
      x ∈ idxs.foldl (fun lis u => lis ++ d u) acc → x ∈ acc ∨ ∃ u, x ∈ d u := by
  intro idxs
  induction idxs with
  | nil => exact fun acc x h => Or.inl h
  | cons u idxs ih =>
    intro acc x h
    rcases ih (acc ++ d u) x h with h2 | h2
    · rcases List.mem_append.mp h2 with h3 | h3
      · exact Or.inl h3
      · exact Or.inr ⟨u, h3⟩
    · exact Or.inr h2

/-- Every item index a (possibly defaulted) agent desires is a real item,
assuming every listed agent desires only real items. -/
theorem desired_getD_lt {agents : List BaseAgent} {N : ℕ}
    (hdes : ∀ ag ∈ agents, ∀ d ∈ ag.desired, d < N) (u x : ℕ)
    (hx : x ∈ (agents.getD u defaultAgent).desired) : x < N := by
  by_cases hu : u < agents.length
  · refine hdes (agents.getD u defaultAgent) ?_ x hx
    rw [List.getD_eq_getElem?_getD, List.getElem?_eq_getElem hu]
    exact List.getElem_mem ..
  · rw [List.getD_eq_default _ _ (Nat.le_of_not_lt hu)] at hx
    exact absurd hx (by simp [defaultAgent])

/-- Every element of a multi-agent desired-items union is a real item. -/
theorem gmad_lt {agents : List BaseAgent} {N : ℕ}
    (hdes : ∀ ag ∈ agents, ∀ d ∈ ag.desired, d < N) (idxs : List ℕ) :
    ∀ x ∈ get_multiple_agents_desired_items agents idxs, x < N := by
  intro x hx
  unfold get_multiple_agents_desired_items at hx
  rcases foldl_append_mem _ idxs [] x (pySetList_subset _ x hx) with h | ⟨u, h⟩
  · exact absurd h (by simp)
  · exact desired_getD_lt hdes u x h

/-- Every element of a bundle index list is a real item. -/
theorem bundle_lt {X : Mat} {N u x : ℕ}
    (hx : x ∈ get_bundle_indexes_from_allocation_matrix X N u) : x < N := by
  unfold get_bundle_indexes_from_allocation_matrix at hx
  exact List.mem_range.mp (List.mem_filter.mp hx).1

/-- Every element of a multi-agent bundle union is a real item. -/
theorem gmb_lt {X : Mat} {N : ℕ} (idxs : List ℕ) :
    ∀ x ∈ get_multiple_agents_bundles X N idxs, x < N := by
  intro x hx
  unfold get_multiple_agents_bundles at hx
  rcases foldl_append_mem _ idxs [] x (pySetList_subset _ x hx) with h | ⟨u, h⟩
  · exact absurd h (by simp)
  · exact bundle_lt h

/-- `add_edge` keeps successor lists duplicate-free. -/
theorem addEdge_nodup {G : Graph} (a b : ℕ) (h : ∀ u, (gSucc G u).Nodup) :
    ∀ u, (gSucc (addEdge G a b) u).Nodup := by
  intro u
  rw [gSucc_addEdge]
  split
  · split
    · exact h a
    · rename_i hmem
      rw [List.nodup_append]
      exact ⟨h a, List.nodup_singleton b, fun y hy hy2 => by
        rw [List.mem_singleton] at hy2
        subst hy2
        exact hmem hy⟩
  · exact h u

/-- `remove_edge` keeps successor lists duplicate-free. -/
theorem removeEdge_nodup {G : Graph} (a b : ℕ) (h : ∀ u, (gSucc G u).Nodup) :
    ∀ u, (gSucc (removeEdge G a b) u).Nodup := by
  intro u
  rw [gSucc_removeEdge]
  split
  · exact (h a).erase b
  · exact h u

/-- `remove_node` keeps successor lists duplicate-free. -/
theorem removeNode_nodup {G : Graph} (w : ℕ) (h : ∀ u, (gSucc G u).Nodup) :
    ∀ u, (gSucc (removeNode G w) u).Nodup := by
  intro u
  rw [gSucc_removeNode]
  split
  · exact List.nodup_nil
  · exact (h u).erase w

/-- Attaching the transient source changes no other node's successor
list. -/
theorem addAgent_ne (X : Mat) (G : Graph) (agents : List BaseAgent) (N pick : ℕ)
    (u : ℕ) (hu : u ≠ N + 1) :
    gSucc (add_agent_to_exchange_graph X G agents N pick) u = gSucc G u := by
  unfold add_agent_to_exchange_graph
  refine foldl_graph_pres_mem (fun Gc => gSucc Gc u = gSucc G u) _ _ ?_ _ ?_
  · intro Gc x hx hQ
    dsimp only
    split
    · rw [gSucc_addEdge, if_neg hu, hQ]
    · exact hQ
  · exact gSucc_addNode G (N + 1) u

/-- Every successor of the transient source after attachment is an item
the picked agent desires, provided the source had no successors before. -/
theorem addAgent_src (X : Mat) (G : Graph) (agents : List BaseAgent) (N pick : ℕ)
    (hout : ∀ v, v ∉ gSucc G (N + 1)) :
    ∀ v ∈ gSucc (add_agent_to_exchange_graph X G agents N pick) (N + 1),
      v ∈ (agents.getD pick defaultAgent).desired := by
  unfold add_agent_to_exchange_graph
  refine foldl_graph_pres_mem
    (fun Gc => ∀ v ∈ gSucc Gc (N + 1), v ∈ (agents.getD pick defaultAgent).desired) _ _ ?_ _ ?_
  · intro Gc x hx hQ v hv
    split at hv
    · rw [gSucc_addEdge, if_pos rfl] at hv
      split at hv
      · exact hQ v hv
      · rcases List.mem_append.mp hv with h2 | h2
        · exact hQ v h2
        · rw [List.mem_singleton] at h2
          subst h2
          exact hx
    · exact hQ v hv
  · intro v hv
    rw [gSucc_addNode] at hv
    exact absurd hv (hout v)

/-- Attaching the transient source keeps successor lists
duplicate-free. -/
theorem addAgent_nodup (X : Mat) (G : Graph) (agents : List BaseAgent) (N pick : ℕ)
    (h : ∀ u, (gSucc G u).Nodup) :
    ∀ u, (gSucc (add_agent_to_exchange_graph X G agents N pick) u).Nodup := by
  unfold add_agent_to_exchange_graph
  refine foldl_graph_pres_mem (fun Gc => ∀ u, (gSucc Gc u).Nodup) _ _ ?_ _ ?_
  · intro Gc x hx hQ
    dsimp only
    split
    · exact addEdge_nodup _ _ hQ
    · exact hQ
  · intro u
    rw [gSucc_addNode]
    exact h u

/-- Under the source-absence invariant, removing the transient source
after the query restores the underlying graph exactly. -/
theorem gSucc_rmSrc {G : Graph} {N : ℕ} (hin : ∀ u, N + 1 ∉ gSucc G u) (u : ℕ) :
    gSucc (removeNode G (N + 1)) u = if u = N + 1 then [] else gSucc G u := by
  rw [gSucc_removeNode]
  split
  · rfl
  · exact List.erase_of_not_mem (hin u)

/-- Structure of `update_exchange_graph` on a nonempty middle path: apart
from the possible removal of the spent sink edge, it only toggles edges
between genuine items (source and target below `N`), and it keeps
successor lists duplicate-free. -/
theorem ueg_props (X : Mat) (G : Graph) (agents : List BaseAgent) (N : ℕ)
    (path_og : List ℕ) (inv : List ℕ) (lastI : ℕ)
    (hdes : ∀ ag ∈ agents, ∀ d ∈ ag.desired, d < N)
    (hlast : ((path_og.drop 1).dropLast).getLast? = some lastI)
    (hnodup : ∀ u, (gSucc G u).Nodup) :
    (∀ u w, w ∈ gSucc (update_exchange_graph X G agents N path_og inv) u →
      w ∈ gSucc (if readX X lastI agents.length = 0 then removeEdge G lastI N else G) u ∨
        (u < N ∧ w < N)) ∧
    (∀ u, (gSucc (update_exchange_graph X G agents N path_og inv) u).Nodup) := by
  simp only [update_exchange_graph, hlast]
  refine foldl_graph_pres_mem
    (fun Gc =>
      (∀ u w, w ∈ gSucc Gc u →
        w ∈ gSucc (if readX X lastI agents.length = 0 then removeEdge G lastI N else G) u ∨
          (u < N ∧ w < N)) ∧
      (∀ u, (gSucc Gc u).Nodup)) _ _ ?_ _ ?_
  · intro Gacc item1 hmem1 hQ
    have hi1 : item1 < N := gmb_lt _ item1 hmem1
    refine foldl_graph_pres_mem
      (fun Gc =>
        (∀ u w, w ∈ gSucc Gc u →
          w ∈ gSucc (if readX X lastI agents.length = 0 then removeEdge G lastI N else G) u ∨
            (u < N ∧ w < N)) ∧
        (∀ u, (gSucc Gc u).Nodup)) _ _ ?_ _ hQ
    intro Gcur item2 hmem2 hQ2
    have hi2 : item2 < N := by
      rcases List.mem_append.mp (pySetList_subset _ item2 hmem2) with h2 | h2
      · exact gmad_lt hdes _ item2 h2
      · exact gmad_lt hdes _ item2 h2
    split
    · split
      · split
        · exact hQ2
        · refine ⟨fun u w hw => ?_, addEdge_nodup _ _ hQ2.2⟩
          rw [gSucc_addEdge] at hw
          split at hw
          · rename_i hu
            subst hu
            split at hw
            · exact hQ2.1 _ w hw
            · rcases List.mem_append.mp hw with h2 | h2
              · exact hQ2.1 _ w h2
              · rw [List.mem_singleton] at h2
                subst h2
                exact Or.inr ⟨hi1, hi2⟩
          · exact hQ2.1 u w hw
      · split
        · refine ⟨fun u w hw => ?_, removeEdge_nodup _ _ hQ2.2⟩
          rw [gSucc_removeEdge] at hw
          split at hw
          · rename_i hu
            subst hu
            exact hQ2.1 _ w (List.mem_of_mem_erase hw)
          · exact hQ2.1 u w hw
        · exact hQ2
    · exact hQ2
  · refine ⟨fun u w hw => Or.inl hw, ?_⟩
    split
    · exact removeEdge_nodup _ _ hnodup
    · exact hnodup

/-- The transfer loop never changes the matrix dimensions. -/
theorem uaLoop_ok_sizes (agents : List BaseAgent) (N agent_picked : ℕ) :
    ∀ (p : List ℕ) (X X2 : Mat) (inv : List (Option ℕ)),
      uaLoop agents N agent_picked X p = .ok (X2, inv) →
      X2.length = X.length ∧ ∀ i, (X2.getD i []).length = (X.getD i []).length := by
  intro p
  induction p with
  | nil =>
    intro X X2 inv h
    rw [uaLoop, Except.ok.injEq, Prod.mk.injEq] at h
    rw [← h.1]
    exact ⟨rfl, fun i => rfl⟩
  | cons last tail ih =>
    intro X X2 inv h
    cases tail with
    | nil =>
      rw [uaLoop, Except.ok.injEq, Prod.mk.injEq] at h
      rw [← h.1]
      exact ⟨length_setX .., fun i => rowlen_setX ..⟩
    | cons next rest =>
      cases hfa : find_agent X agents N next last with
      | error e =>
        have hval : uaLoop agents N agent_picked X (last :: next :: rest) = .error e := by
          simp only [uaLoop, hfa]
        rw [hval] at h
        exact absurd h (by simp)
      | ok oa =>
        cases oa with
        | some a =>
          cases hrec : uaLoop agents N agent_picked
              (setX (setX X last a 1) next a 0) (next :: rest) with
          | error e =>
            have hval : uaLoop agents N agent_picked X (last :: next :: rest) = .error e := by
              simp only [uaLoop, hfa, hrec]
            rw [hval] at h
            exact absurd h (by simp)
          | ok pr =>
            obtain ⟨X2a, inva⟩ := pr
            have hval : uaLoop agents N agent_picked X (last :: next :: rest) =
                .ok (X2a, some a :: inva) := by
              simp only [uaLoop, hfa, hrec]
            rw [hval, Except.ok.injEq, Prod.mk.injEq] at h
            obtain ⟨hrs, hrw⟩ := ih _ _ _ hrec
            rw [← h.1]
            constructor
            · rw [hrs, length_setX, length_setX]
            · intro i
              rw [hrw i, rowlen_setX, rowlen_setX]
        | none =>
          cases hrec : uaLoop agents N agent_picked
              (setRow (setRow X last 1) next 0) (next :: rest) with
          | error e =>
            have hval : uaLoop agents N agent_picked X (last :: next :: rest) = .error e := by
              simp only [uaLoop, hfa, hrec]
            rw [hval] at h
            exact absurd h (by simp)
          | ok pr =>
            obtain ⟨X2a, inva⟩ := pr
            have hval : uaLoop agents N agent_picked X (last :: next :: rest) =
                .ok (X2a, none :: inva) := by
              simp only [uaLoop, hfa, hrec]
            rw [hval, Except.ok.injEq, Prod.mk.injEq] at h
            obtain ⟨hrs, hrw⟩ := ih _ _ _ hrec
            rw [← h.1]
            constructor
            · rw [hrs, length_setRow, length_setRow]
            · intro i
              rw [hrw i, rowlen_setRow, rowlen_setRow]

/-- When every owner lookup of the transfer loop succeeded, the loop never
writes the slack column. -/
theorem uaLoop_allSome_colM (agents : List BaseAgent) (N agent_picked : ℕ)
    (hpick : agent_picked < agents.length) :
    ∀ (p : List ℕ) (X X2 : Mat) (inv : List (Option ℕ)),
      uaLoop agents N agent_picked X p = .ok (X2, inv) →
      inv.all Option.isSome = true →
      ∀ i, readX X2 i agents.length = readX X i agents.length := by
  intro p
  induction p with
  | nil =>
    intro X X2 inv h hall i
    rw [uaLoop, Except.ok.injEq, Prod.mk.injEq] at h
    rw [← h.1]
  | cons last tail ih =>
    intro X X2 inv h hall i
    cases tail with
    | nil =>
      rw [uaLoop, Except.ok.injEq, Prod.mk.injEq] at h
      rw [← h.1, readX_setX_ne _ (fun hh => absurd hh.2 (by omega))]
    | cons next rest =>
      cases hfa : find_agent X agents N next last with
      | error e =>
        have hval : uaLoop agents N agent_picked X (last :: next :: rest) = .error e := by
          simp only [uaLoop, hfa]
        rw [hval] at h
        exact absurd h (by simp)
      | ok oa =>
        cases oa with
        | some a =>
          have ha : a < agents.length := find_agent_some_lt hfa
          cases hrec : uaLoop agents N agent_picked
              (setX (setX X last a 1) next a 0) (next :: rest) with
          | error e =>
            have hval : uaLoop agents N agent_picked X (last :: next :: rest) = .error e := by
              simp only [uaLoop, hfa, hrec]
            rw [hval] at h
            exact absurd h (by simp)
          | ok pr =>
            obtain ⟨X2a, inva⟩ := pr
            have hval : uaLoop agents N agent_picked X (last :: next :: rest) =
                .ok (X2a, some a :: inva) := by
              simp only [uaLoop, hfa, hrec]
            rw [hval, Except.ok.injEq, Prod.mk.injEq] at h
            have hall2 : inva.all Option.isSome = true := by
              rw [← h.2, List.all_cons, Bool.and_eq_true] at hall
              exact hall.2
            rw [← h.1, ih _ _ _ hrec hall2 i,
              readX_setX_ne _ (fun hh => absurd hh.2 (by omega)),
              readX_setX_ne _ (fun hh => absurd hh.2 (by omega))]
        | none =>
          cases hrec : uaLoop agents N agent_picked
              (setRow (setRow X last 1) next 0) (next :: rest) with
          | error e =>
            have hval : uaLoop agents N agent_picked X (last :: next :: rest) = .error e := by
              simp only [uaLoop, hfa, hrec]
            rw [hval] at h
            exact absurd h (by simp)
          | ok pr =>
            obtain ⟨X2a, inva⟩ := pr
            have hval : uaLoop agents N agent_picked X (last :: next :: rest) =
                .ok (X2a, none :: inva) := by
              simp only [uaLoop, hfa, hrec]
            rw [hval, Except.ok.injEq, Prod.mk.injEq] at h
            rw [← h.2, List.all_cons, Bool.and_eq_true] at hall
            exact absurd hall.1 (by simp)

/-- `get_gain_function` never returns `-inf`: a saturated marker can only
be written by the no-path branch of the engine. -/
theorem get_gain_ok_ne_ninf {X : Mat} {agents : List BaseAgent} {N pick : ℕ}
    {criteria : GainCriteria} {weights : List ℚ} {gv : PyFloat}
    (h : get_gain_function X agents N pick criteria weights = .ok gv) : gv ≠ .ninf := by
  cases criteria <;> cases hw : weights.get? pick <;>
    simp only [get_gain_function, hw, reduceCtorEq, reduceIte] at h <;>
      (try split_ifs at h) <;>
        first
          | (rw [Except.ok.injEq] at h
             rw [← h]
             exact fun hh => PyFloat.noConfusion hh)
          | exact absurd h (by simp)

/-- The full-vector `np.argmax` lands inside the active player list when
exactly the non-players are marked `-inf`. -/
theorem npArgmax_mem (g : List PyFloat) (players : List ℕ)
    (hsub : ∀ j ∈ players, j < g.length) (hne : players ≠ [])
    (hact : ∀ j ∈ players, g.getD j .ninf ≠ .ninf)
    (hsat : ∀ j, j < g.length → j ∉ players → g.getD j .ninf = .ninf) :
    npArgmax g ∈ players := by
  obtain ⟨p, hp⟩ : ∃ p, p ∈ players := by
    cases players with
    | nil => exact absurd rfl hne
    | cons a l => exact ⟨a, List.mem_cons_self a l⟩
  have hlen : 0 < g.length := Nat.lt_of_le_of_lt (Nat.zero_le p) (hsub p hp)
  have hA : npArgmax g < g.length := npArgmaxAux_lt g g.length hlen
  by_contra hout
  have hninf : g.getD (npArgmax g) .ninf = .ninf := hsat _ hA hout
  have hpmax := npArgmaxAux_max g g.length p (hsub p hp)
  rw [show npArgmax g = npArgmaxAux g g.length from rfl] at hninf
  rw [hninf, pfLt_ninf (hact p hp)] at hpmax
  exact Bool.true_eq_false.mp hpmax

/-- Setting one entry of a list leaves other positions unchanged (any
element type). -/
theorem getD_set_ne' {α : Type} {l : List α} {i j : ℕ} (v d : α) (h : j ≠ i) :
    (l.set i v).getD j d = l.getD j d := by
  rw [List.getD_eq_getElem?_getD, List.getElem?_set, if_neg (fun hc => h hc.symm),
    ← List.getD_eq_getElem?_getD]

/-- Setting one in-range entry of a list reads back the value (any element
type). -/
theorem getD_set_eq' {α : Type} {l : List α} {i : ℕ} (v d : α) (h : i < l.length) :
    (l.set i v).getD i d = v := by
  rw [List.getD_eq_getElem?_getD, List.getElem?_set, if_pos rfl, if_pos h]
  rfl

/-- Every non-head element of a forward chain is the target of some
edge. -/
theorem fwdPath_mem_target (G : Graph) :
    ∀ l, fwdPath G l = true → ∀ v ∈ l.drop 1, ∃ u, v ∈ gSucc G u := by
  intro l
  induction l with
  | nil => intro _ v hv; exact absurd hv (by simp)
  | cons a l ih =>
    intro h v hv
    cases l with
    | nil => exact absurd hv (by simp)
    | cons b rest =>
      rw [fwdPath, Bool.and_eq_true] at h
      rw [List.drop_one, List.tail_cons] at hv
      rcases List.mem_cons.mp hv with hv2 | hv2
      · subst hv2
        exact ⟨a, of_decide_eq_true h.1⟩
      · exact ih h.2 v (by rw [List.drop_one, List.tail_cons]; exact hv2)

/-- The final edge of a forward chain ending in two known nodes. -/
theorem fwdPath_last_pair (G : Graph) (a b : ℕ) :
    ∀ l, fwdPath G (l ++ [a, b]) = true → b ∈ gSucc G a := by
  intro l
  induction l with
  | nil =>
    intro h
    rw [List.nil_append, fwdPath, Bool.and_eq_true] at h
    exact of_decide_eq_true h.1
  | cons x xs ih =>
    intro h
    rw [List.cons_append] at h
    exact ih (fwdPath_tail G x _ h)

/-- A list with a known last element splits off that element. -/
theorem dropLast_append_last {l : List ℕ} {a : ℕ} (h : l.getLast? = some a) :
    l.dropLast ++ [a] = l := by
  have hne : l ≠ [] := by rintro rfl; simp at h
  rw [List.getLast?_eq_getLast l hne, Option.some.injEq] at h
  rw [← h]
  exact List.dropLast_append_getLast hne

/-- Shape of a successful source-to-sink query in the engine: the path is
`s :: i1 :: ... :: ik :: t` with a nonempty middle of genuine items, and
the item nearest the sink holds a graph edge to the sink. -/
theorem fsp_shape {G1 : Graph} {N fuel : ℕ} {path : List ℕ}
    (hpath : find_shortest_path G1 (N + 1) N fuel = some path)
    (hsrc : ∀ v ∈ gSucc G1 (N + 1), v < N)
    (htar : ∀ u v, u ≠ N + 1 → v ∈ gSucc G1 u → v ≤ N) :
    ∃ mid lastI, path = (N + 1) :: (mid ++ [N]) ∧
      (path.drop 1).dropLast = mid ∧
      mid.getLast? = some lastI ∧
      (∀ v ∈ mid, v < N) ∧
      N ∈ gSucc G1 lastI := by
  obtain ⟨hhead, hlastt, hchain, hnot⟩ := fsp_valid hpath
  cases path with
  | nil => exact absurd hhead (by simp)
  | cons p0 tail =>
    rw [List.head?_cons, Option.some.injEq] at hhead
    subst hhead
    have htail_ne : tail ≠ [] := by
      rintro rfl
      rw [List.getLast?_singleton, Option.some.injEq] at hlastt
      omega
    have htail_last : tail.getLast? = some N := by
      cases tail with
      | nil => exact absurd rfl htail_ne
      | cons t0 ts =>
        rw [List.getLast?_cons_cons] at hlastt
        exact hlastt
    have htail_eq : tail.dropLast ++ [N] = tail := dropLast_append_last htail_last
    have hdropLast : (((N + 1) :: tail : List ℕ)).dropLast = (N + 1) :: tail.dropLast := by
      rw [← htail_eq, ← List.cons_append, List.dropLast_concat, List.dropLast_concat]
    have hmlt : ∀ v ∈ tail.dropLast, v < N := by
      intro v hv
      have hvdrop : v ∈ (((N + 1) :: tail : List ℕ)).drop 1 := by
        rw [List.drop_one, List.tail_cons, ← htail_eq]
        exact List.mem_append_left _ hv
      obtain ⟨u, hu⟩ := fwdPath_mem_target G1 _ hchain v hvdrop
      have hvne : v ≠ N := by
        intro hveq
        subst hveq
        apply hnot
        rw [hdropLast]
        exact List.mem_cons_of_mem _ hv
      by_cases hu1 : u = N + 1
      · subst hu1
        exact hsrc v hu
      · have := htar u v hu1 hu
        omega
    have hmidne : tail.dropLast ≠ [] := by
      intro h0
      have htail2 : tail = [N] := by
        rw [← htail_eq, h0, List.nil_append]
      rw [htail2, fwdPath, Bool.and_eq_true] at hchain
      have := hsrc N (of_decide_eq_true hchain.1)
      omega
    obtain ⟨lastI, hlastI⟩ : ∃ x, tail.dropLast.getLast? = some x := by
      cases hmm : tail.dropLast.getLast? with
      | none => exact absurd (List.getLast?_eq_none_iff.mp hmm) hmidne
      | some x => exact ⟨x, rfl⟩
    have hedge : N ∈ gSucc G1 lastI := by
      have hdecomp : (((N + 1) :: tail : List ℕ)) =
          ((N + 1) :: tail.dropLast.dropLast) ++ [lastI, N] := by
        rw [← htail_eq, ← dropLast_append_last hlastI]
        simp [List.cons_append, List.append_assoc]
      rw [hdecomp] at hchain
      exact fwdPath_last_pair G1 lastI N _ hchain
    exact ⟨tail.dropLast, lastI, by rw [htail_eq], by rw [List.drop_one, List.tail_cons],
      hlastI, hmlt, hedge⟩

/-- One successful engine iteration preserves the reachable-state
invariant and strictly decreases the measure `total slack + players`:
a no-path iteration removes the picked player, a successful transfer
spends exactly one unit of slack. -/
theorem ys_step_inv (agents : List BaseAgent) (caps : List ℤ) (criteria : GainCriteria)
    (weights : List ℚ) (st st2 : YsState)
    (hdes : ∀ ag ∈ agents, ∀ d ∈ ag.desired, d < caps.length)
    (hinv : YsInv agents caps st) (hne : st.players ≠ [])
    (hstep : ys_step agents caps criteria weights st = .ok st2) :
    YsInv agents caps st2 ∧ ysMeasure caps agents st2 < ysMeasure caps agents st := by
  simp only [ys_step] at hstep
  set pick := npArgmax st.gain with hpickd
  set G1 := add_agent_to_exchange_graph st.X st.G agents caps.length pick with hG1d
  set G2 := removeNode G1 (caps.length + 1) with hG2d
  have hpickmem : pick ∈ st.players :=
    npArgmax_mem st.gain st.players
      (fun j hj => by rw [hinv.glen]; exact hinv.mem_lt j hj) hne hinv.act
      (fun j hj hnot => hinv.sat j (hinv.glen ▸ hj) hnot)
  have hpicklt : pick < agents.length := hinv.mem_lt _ hpickmem
  have hG1ne : ∀ u, u ≠ caps.length + 1 → gSucc G1 u = gSucc st.G u := by
    intro u hu
    rw [hG1d]
    exact addAgent_ne st.X st.G agents caps.length pick u hu
  have hsrc1 : ∀ v ∈ gSucc G1 (caps.length + 1), v < caps.length := by
    intro v hv
    rw [hG1d] at hv
    exact desired_getD_lt hdes pick v
      (addAgent_src st.X st.G agents caps.length pick hinv.noSrcOut v hv)
  have htar1 : ∀ u v, u ≠ caps.length + 1 → v ∈ gSucc G1 u → v ≤ caps.length := by
    intro u v hu hv
    rw [hG1ne u hu] at hv
    exact hinv.targets u v hv
  have hG1noSrcIn : ∀ u, caps.length + 1 ∉ gSucc G1 u := by
    intro u hmem
    by_cases hu : u = caps.length + 1
    · subst hu
      have := hsrc1 _ hmem
      omega
    · rw [hG1ne u hu] at hmem
      exact hinv.noSrcIn u hmem
  have hG2succ : ∀ u, gSucc G2 u = if u = caps.length + 1 then [] else gSucc st.G u := by
    intro u
    rw [hG2d, gSucc_rmSrc hG1noSrcIn u]
    by_cases hu : u = caps.length + 1
    · rw [if_pos hu, if_pos hu]
    · rw [if_neg hu, if_neg hu, hG1ne u hu]
  have hG2noSrcIn : ∀ u, caps.length + 1 ∉ gSucc G2 u := by
    intro u hmem
    rw [hG2succ u] at hmem
    split at hmem
    · exact absurd hmem (List.not_mem_nil _)
    · exact hinv.noSrcIn u hmem
  have hG2noSrcOut : ∀ v, v ∉ gSucc G2 (caps.length + 1) := by
    intro v hv
    rw [hG2succ _, if_pos rfl] at hv
    exact absurd hv (List.not_mem_nil _)
  have hG2nodup : ∀ u, (gSucc G2 u).Nodup := by
    intro u
    rw [hG2succ u]
    split
    · exact List.nodup_nil
    · exact hinv.gnodup u
  have hG2targets : ∀ u v, v ∈ gSucc G2 u → v ≤ caps.length := by
    intro u v hv
    rw [hG2succ u] at hv
    split at hv
    · exact absurd hv (List.not_mem_nil _)
    · exact hinv.targets u v hv
  have hG2sink : ∀ i, caps.length ∈ gSucc G2 i → 1 ≤ readX st.X i agents.length := by
    intro i hv
    rw [hG2succ i] at hv
    split at hv
    · exact absurd hv (List.not_mem_nil _)
    · exact hinv.sink i hv
  cases hpath : find_shortest_path G1 (caps.length + 1) caps.length (caps.length + 3) with
  | none =>
    simp only [hpath] at hstep
    rw [Except.ok.injEq] at hstep
    subst hstep
    constructor
    · exact
        { nodup := hinv.nodup.erase pick
          mem_lt := fun a ha => hinv.mem_lt a (List.mem_of_mem_erase ha)
          act := by
            intro a ha
            have ha2 : a ∈ st.players.erase pick := ha
            have hane : a ≠ pick := (hinv.nodup.mem_erase_iff.mp ha2).1
            show (st.gain.set pick .ninf).getD a .ninf ≠ .ninf
            rw [getD_set_ne' _ _ hane]
            exact hinv.act a (List.mem_of_mem_erase ha2)
          sat := by
            intro a halt hnot
            have hnot2 : a ∉ st.players.erase pick := hnot
            show (st.gain.set pick .ninf).getD a .ninf = .ninf
            by_cases ha : a = pick
            · subst ha
              rw [getD_set_eq' _ _ (by rw [hinv.glen]; exact hpicklt)]
            · rw [getD_set_ne' _ _ ha]
              refine hinv.sat a halt (fun hmem => hnot2 ?_)
              rw [hinv.nodup.mem_erase_iff]
              exact ⟨ha, hmem⟩
          glen := by
            show (st.gain.set pick .ninf).length = agents.length
            rw [List.length_set]
            exact hinv.glen
          xlen := hinv.xlen
          rows := hinv.rows
          noSrcIn := hG2noSrcIn
          noSrcOut := hG2noSrcOut
          gnodup := hG2nodup
          targets := hG2targets
          sink := hG2sink }
    · show totalSlack caps agents.length st.X + (st.players.erase pick).length <
        totalSlack caps agents.length st.X + st.players.length
      have h1 := List.length_erase_of_mem hpickmem
      have h2 : 0 < st.players.length := List.length_pos.mpr hne
      omega
  | some path =>
    have hsome := hpath
    obtain ⟨mid, lastI, hpeq, hmid, hlastI, hmidlt, hedge1⟩ := fsp_shape hpath hsrc1 htar1
    have hlastlt : lastI < caps.length := hmidlt lastI (getLast?_some_mem hlastI)
    have hedgeG : caps.length ∈ gSucc st.G lastI := by
      rwa [hG1ne lastI (by omega)] at hedge1
    have hslack : 1 ≤ readX st.X lastI agents.length := hinv.sink lastI hedgeG
    have hlastX : lastI < st.X.length := by
      rw [hinv.xlen]
      exact hlastlt
    have hrowlast : (st.X.getD lastI []).length = agents.length + 1 := hinv.rows lastI hlastX
    have hmidlast : ((path.drop 1).dropLast).getLast? = some lastI := by
      rw [hmid]
      exact hlastI
    cases hua : update_allocation st.X agents caps.length path pick with
    | error e =>
      simp only [hpath, hua] at hstep
      exact absurd hstep (by simp)
    | ok pr =>
      obtain ⟨X1, invOpt⟩ := pr
      simp only [hpath, hua] at hstep
      by_cases hall : invOpt.all Option.isSome = true
      · rw [if_pos hall] at hstep
        cases hgv : get_gain_function X1 agents caps.length pick criteria weights with
        | error e =>
          simp only [hgv] at hstep
          exact absurd hstep (by simp)
        | ok gv =>
          simp only [hgv] at hstep
          rw [Except.ok.injEq] at hstep
          subst hstep
          simp only [update_allocation, hmid, hlastI] at hua
          cases hrec : uaLoop agents caps.length pick
              (setX st.X lastI agents.length (readX st.X lastI agents.length - 1))
              mid.reverse with
          | error e =>
            rw [hrec] at hua
            exact absurd hua (by simp)
          | ok pr2 =>
            obtain ⟨X2, inv2⟩ := pr2
            rw [hrec] at hua
            rw [Except.ok.injEq, Prod.mk.injEq] at hua
            obtain ⟨hX1eq, hinveq⟩ := hua
            subst hX1eq
            subst hinveq
            have hall2 : inv2.all Option.isSome = true := by
              rw [List.all_cons, Bool.and_eq_true] at hall
              exact hall.2
            have hcolM := uaLoop_allSome_colM agents caps.length pick hpicklt _ _ _ _ hrec hall2
            have hsizes := uaLoop_ok_sizes agents caps.length pick _ _ _ _ hrec
            have hslackX1 : ∀ i, readX X2 i agents.length =
                if i = lastI then readX st.X lastI agents.length - 1
                else readX st.X i agents.length := by
              intro i
              rw [hcolM i]
              by_cases hi : i = lastI
              · subst hi
                rw [if_pos rfl, readX_setX_eq _ hlastX (by rw [hrowlast]; omega)]
              · rw [if_neg hi, readX_setX_ne _ (fun hh => hi hh.1)]
            have hX2len : X2.length = st.X.length := by
              rw [hsizes.1, length_setX]
            have hX2rows : ∀ i, (X2.getD i []).length = (st.X.getD i []).length := fun i => by
              rw [hsizes.2 i, rowlen_setX]
            obtain ⟨hE3, hND3⟩ := ueg_props X2 G2 agents caps.length path
              ((some pick :: inv2).filterMap id) lastI hdes hmidlast hG2nodup
            have hG1sub : ∀ u w,
                w ∈ gSucc (if readX X2 lastI agents.length = 0
                  then removeEdge G2 lastI caps.length else G2) u →
                w ∈ gSucc G2 u := by
              intro u w hw
              split at hw
              · rw [gSucc_removeEdge] at hw
                split at hw
                · rename_i hu
                  subst hu
                  exact List.mem_of_mem_erase hw
                · exact hw
              · exact hw
            constructor
            · exact
                { nodup := hinv.nodup
                  mem_lt := hinv.mem_lt
                  act := by
                    intro a ha
                    show (st.gain.set pick gv).getD a .ninf ≠ .ninf
                    by_cases hap : a = pick
                    · subst hap
                      rw [getD_set_eq' _ _ (by rw [hinv.glen]; exact hpicklt)]
                      exact get_gain_ok_ne_ninf hgv
                    · rw [getD_set_ne' _ _ hap]
                      exact hinv.act a ha
                  sat := by
                    intro a halt hnot
                    show (st.gain.set pick gv).getD a .ninf = .ninf
                    have hap : a ≠ pick := fun hh => hnot (hh ▸ hpickmem)
                    rw [getD_set_ne' _ _ hap]
                    exact hinv.sat a halt hnot
                  glen := by
                    show (st.gain.set pick gv).length = agents.length
                    rw [List.length_set]
                    exact hinv.glen
                  xlen := by
                    show X2.length = caps.length
                    rw [hX2len, hinv.xlen]
                  rows := by
                    intro i hi
                    show (X2.getD i []).length = agents.length + 1
                    rw [hX2rows i]
                    refine hinv.rows i ?_
                    rw [← hX2len]
                    exact hi
                  noSrcIn := by
                    intro u hmem
                    rcases hE3 u (caps.length + 1) hmem with h | h
                    · exact hG2noSrcIn u (hG1sub u _ h)
                    · omega
                  noSrcOut := by
                    intro v hv
                    rcases hE3 (caps.length + 1) v hv with h | h
                    · exact hG2noSrcOut v (hG1sub _ v h)
                    · omega
                  gnodup := hND3
                  targets := by
                    intro u v hv
                    rcases hE3 u v hv with h | h
                    · exact hG2targets u v (hG1sub u v h)
                    · exact Nat.le_of_lt h.2
                  sink := by
                    intro i hmem
                    show 1 ≤ readX X2 i agents.length
                    rcases hE3 i caps.length hmem with h | h
                    · split at h
                      · rename_i hz
                        rw [gSucc_removeEdge] at h
                        split at h
                        · rename_i hi
                          subst hi
                          exact absurd h ((hG2nodup i).not_mem_erase)
                        · rename_i hi
                          have := hG2sink i h
                          rw [hslackX1 i, if_neg hi]
                          exact this
                      · rename_i hz
                        by_cases hi : i = lastI
                        · subst hi
                          rw [hslackX1 i, if_pos rfl] at hz ⊢
                          omega
                        · have := hG2sink i h
                          rw [hslackX1 i, if_neg hi]
                          exact this
                    · omega }
            · show totalSlack caps agents.length X2 + st.players.length <
                totalSlack caps agents.length st.X + st.players.length
              have hdec : totalSlack caps agents.length X2 <
                  totalSlack caps agents.length st.X := by
                unfold totalSlack
                refine Finset.sum_lt_sum (fun i hi => ?_)
                  ⟨lastI, Finset.mem_range.mpr hlastlt, ?_⟩
                · rw [hslackX1 i]
                  by_cases hh : i = lastI
                  · subst hh
                    rw [if_pos rfl]
                    omega
                  · rw [if_neg hh]
                · rw [hslackX1 lastI, if_pos rfl]
                  omega
              omega
      · rw [if_neg hall] at hstep
        exact absurd hstep (by simp)

/-- With fuel at least the measure, the engine loop never runs out of
fuel: it completes normally or raises, within `measure` iterations. -/
theorem ys_loop_no_fuelout (agents : List BaseAgent) (caps : List ℤ)
    (criteria : GainCriteria) (weights : List ℚ)
    (hdes : ∀ ag ∈ agents, ∀ d ∈ ag.desired, d < caps.length) :
    ∀ fuel st, YsInv agents caps st → ysMeasure caps agents st ≤ fuel →
      ys_loop agents caps criteria weights fuel st ≠ .ok none := by
  intro fuel
  induction fuel with
  | zero =>
    intro st hinv hm
    by_cases hp : st.players = []
    · rw [ys_loop_stop hp]
      simp
    · exfalso
      unfold ysMeasure at hm
      have : st.players.length = 0 := by omega
      exact hp (List.length_eq_zero.mp this)
  | succ fuel ih =>
    intro st hinv hm
    by_cases hp : st.players = []
    · rw [ys_loop_stop hp]
      simp
    · cases hstep : ys_step agents caps criteria weights st with
      | error e =>
        rw [ys_loop_raise hp hstep]
        simp
      | ok st2 =>
        rw [ys_loop_go hp hstep]
        obtain ⟨hinv2, hlt⟩ := ys_step_inv agents caps criteria weights st st2 hdes hinv hp hstep
        exact ih st2 hinv2 (by omega)

/-- The initial allocation matrix stores each item's capacity in the
slack column. -/
theorem init_slack (caps : List ℤ) (M i : ℕ) (hi : i < caps.length) :
    readX (init_allocation_matrix caps M) i M = caps.getD i 0 := by
  unfold readX
  have hrow : (init_allocation_matrix caps M).getD i [] =
      List.replicate M 0 ++ [caps.getD i 0] := by
    unfold init_allocation_matrix
    rw [List.getD_eq_getElem?_getD, List.getElem?_map, List.getElem?_eq_getElem hi]
    simp [List.getD_eq_getElem?_getD, List.getElem?_eq_getElem hi]
  rw [hrow]
  simp

/-- Successor lists of the freshly initialised exchange graph: every item
points at the sink, the sink at nothing. -/
theorem find?_range_map (N u : ℕ) (v : List ℕ) (hu : u < N) :
    ((List.range N).map fun i => (i, v)).find? (fun p => p.1 == u) = some (u, v) := by
  induction N with
  | zero => omega
  | succ N ih =>
    rw [List.range_succ, List.map_append, List.find?_append]
    by_cases h : u < N
    · rw [ih h]
      rfl
    · have huN : u = N := by omega
      subst huN
      rw [List.find?_eq_none.mpr]
      · rw [List.map_cons, List.map_nil,
          @List.find?_cons_of_pos _ (fun p => p.1 == u) (u, v) [] (by rw [beq_iff_eq])]
        rfl
      · intro p hp
        rw [List.mem_map] at hp
        obtain ⟨i, hi, rfl⟩ := hp
        rw [List.mem_range] at hi
        rw [Bool.not_eq_true, beq_eq_false_iff_ne]
        exact fun hh => absurd (hh ▸ hi) (by omega)

/-- Successor lists of `initialize_exchange_graph`. -/
theorem gSucc_init (N u : ℕ) :
    gSucc (init_exchange_graph N) u = if u < N then [N] else [] := by
  unfold init_exchange_graph gSucc
  rw [List.find?_append]
  by_cases hu : u < N
  · rw [if_pos hu, find?_range_map N u [N] hu]
    rfl
  · rw [if_neg hu]
    rw [List.find?_eq_none.mpr]
    · by_cases hu2 : u = N
      · subst hu2
        rw [@List.find?_cons_of_pos _ (fun p => p.1 == u) (u, []) [] (by rw [beq_iff_eq])]
        rfl
      · rw [@List.find?_cons_of_neg _ (fun p => p.1 == u) (N, []) []
          (by rw [beq_iff_eq]; exact fun hh => hu2 hh.symm)]
        rfl
    · intro p hp
      rw [List.mem_map] at hp
      obtain ⟨i, hi, rfl⟩ := hp
      rw [List.mem_range] at hi
      rw [Bool.not_eq_true, beq_eq_false_iff_ne]
      exact fun hh => absurd (hh ▸ hi) hu

/-- The indexed sum of default reads over a list of integers is the sum of
their truncations. -/
theorem sum_getD_toNat :
    ∀ caps : List ℤ, ∑ i in Finset.range caps.length, (caps.getD i 0).toNat =
      (caps.map Int.toNat).sum := by
  intro caps
  induction caps with
  | nil => simp
  | cons c cs ih =>
    rw [List.length_cons, Finset.sum_range_succ']
    simp only [List.getD_cons_succ, List.getD_cons_zero, List.map_cons, List.sum_cons]
    rw [ih]
    omega

/-- The initial engine state satisfies the reachable-state invariant, and
its measure is exactly `total capacity + number of agents`. -/
theorem init_inv (agents : List BaseAgent) (caps : List ℤ)
    (hcaps : ∀ c ∈ caps, 1 ≤ c) :
    YsInv agents caps (init_state agents caps) ∧
    ysMeasure caps agents (init_state agents caps) = ys_fuel caps agents.length := by
  have hrow : ∀ i, i < caps.length →
      ((init_allocation_matrix caps agents.length).getD i []).length = agents.length + 1 := by
    intro i hi
    unfold init_allocation_matrix
    rw [List.getD_eq_getElem?_getD, List.getElem?_map, List.getElem?_eq_getElem hi]
    simp
  constructor
  · exact
      { nodup := by
          show (List.range agents.length).Nodup
          exact List.nodup_range _
        mem_lt := by
          intro a ha
          exact List.mem_range.mp ha
        act := by
          intro a ha
          have halt : a < agents.length := List.mem_range.mp ha
          show (List.replicate agents.length (PyFloat.val 0)).getD a .ninf ≠ .ninf
          rw [List.getD_eq_getElem?_getD, List.getElem?_replicate, if_pos halt]
          exact fun hh => PyFloat.noConfusion hh
        sat := by
          intro a halt hnot
          exact absurd (List.mem_range.mpr halt) hnot
        glen := List.length_replicate ..
        xlen := List.length_map ..
        rows := by
          intro i hi
          refine hrow i ?_
          rw [show (init_state agents caps).X.length = caps.length from List.length_map ..] at hi
          exact hi
        noSrcIn := by
          intro u hmem
          rw [show (init_state agents caps).G = init_exchange_graph caps.length from rfl,
            gSucc_init] at hmem
          split at hmem
          · rw [List.mem_singleton] at hmem
            omega
          · exact absurd hmem (List.not_mem_nil _)
        noSrcOut := by
          intro v hv
          rw [show (init_state agents caps).G = init_exchange_graph caps.length from rfl,
            gSucc_init, if_neg (by omega)] at hv
          exact absurd hv (List.not_mem_nil _)
        gnodup := by
          intro u
          rw [show (init_state agents caps).G = init_exchange_graph caps.length from rfl,
            gSucc_init]
          split
          · exact List.nodup_singleton _
          · exact List.nodup_nil
        targets := by
          intro u v hv
          rw [show (init_state agents caps).G = init_exchange_graph caps.length from rfl,
            gSucc_init] at hv
          split at hv
          · rw [List.mem_singleton] at hv
            omega
          · exact absurd hv (List.not_mem_nil _)
        sink := by
          intro i hmem
          rw [show (init_state agents caps).G = init_exchange_graph caps.length from rfl,
            gSucc_init] at hmem
          split at hmem
          · rename_i hi
            show 1 ≤ readX (init_allocation_matrix caps agents.length) i agents.length
            rw [init_slack caps agents.length i hi]
            refine hcaps _ ?_
            rw [List.getD_eq_getElem?_getD, List.getElem?_eq_getElem hi]
            exact List.getElem_mem ..
          · exact absurd hmem (List.not_mem_nil _) }
  · show totalSlack caps agents.length (init_allocation_matrix caps agents.length) +
      (List.range agents.length).length = ys_fuel caps agents.length
    unfold totalSlack ys_fuel
    rw [List.length_range,
      Finset.sum_congr rfl (fun i hi => by
        rw [init_slack caps agents.length i (Finset.mem_range.mp hi)]),
      sum_getD_toNat]

/-- Claim C6 (confirmed): over `M` agents and items of total capacity
`C = Σ capacity(i)` (each at least one) with in-range desired items, the
engine loop of `general_yankee_swap` executes at most `C + M` iterations:
every successful iteration preserves the reachable-state invariant and
strictly decreases `total slack + remaining players` (a no-path iteration
removes the picked player for good, a transfer spends one unit of slack
and never increases any slack), the initial measure is exactly `C + M`,
and with fuel `C + M` the loop never exhausts its fuel — it terminates
normally or by raising. -/
theorem C6_termination (agents : List BaseAgent) (caps : List ℤ) (criteria : GainCriteria)
    (weights : List ℚ)
    (hcaps : ∀ c ∈ caps, 1 ≤ c)
    (hdes : ∀ ag ∈ agents, ∀ d ∈ ag.desired, d < caps.length) :
    (∀ st st2, YsInv agents caps st → st.players ≠ [] →
      ys_step agents caps criteria weights st = .ok st2 →
      YsInv agents caps st2 ∧ ysMeasure caps agents st2 < ysMeasure caps agents st) ∧
    ysMeasure caps agents (init_state agents caps) = ys_fuel caps agents.length ∧
    general_yankee_swap agents caps criteria weights (ys_fuel caps agents.length) ≠
      .ok none := by
  obtain ⟨hinv0, hm0⟩ := init_inv agents caps hcaps
  refine ⟨fun st st2 hinv hne hstep =>
    ys_step_inv agents caps criteria weights st st2 hdes hinv hne hstep, hm0, ?_⟩
  unfold general_yankee_swap
  exact ys_loop_no_fuelout agents caps criteria weights hdes _ _ hinv0 (le_of_eq hm0)

/-- Witness for claim C6 on the concrete three-agent, four-item run of
claim C1: capacities are positive, desired items in range, and the
termination bound applies. -/
theorem C6_witness :
    (∀ c ∈ capsC1, (1 : ℤ) ≤ c) ∧
    (∀ ag ∈ agsC1, ∀ d ∈ ag.desired, d < capsC1.length) ∧
    ((∀ st st2, YsInv agsC1 capsC1 st → st.players ≠ [] →
        ys_step agsC1 capsC1 .LorenzDominance [] st = .ok st2 →
        YsInv agsC1 capsC1 st2 ∧ ysMeasure capsC1 agsC1 st2 < ysMeasure capsC1 agsC1 st) ∧
      ysMeasure capsC1 agsC1 (init_state agsC1 capsC1) = ys_fuel capsC1 agsC1.length ∧
      general_yankee_swap agsC1 capsC1 .LorenzDominance [] (ys_fuel capsC1 agsC1.length) ≠
        .ok none) :=
  ⟨by decide, by decide,
    C6_termination agsC1 capsC1 .LorenzDominance [] (by decide) (by decide)⟩

/-- A property preserved by every step of a fold over a given list is
preserved by the whole fold (any accumulator type). -/
theorem foldl_pres_mem {α β : Type} (Q : β → Prop) (step : β → α → β)
    (l : List α) (hstep : ∀ b x, x ∈ l → Q b → Q (step b x)) :
    ∀ b0, Q b0 → Q (l.foldl step b0) := by
  induction l with
  | nil => exact fun b0 h => h
  | cons x l ih =>
    exact fun b0 h =>
      ih (fun b y hy => hstep b y (List.mem_cons_of_mem _ hy)) _
        (hstep b0 x (List.mem_cons_self ..) h)

/-- When no listed agent ever trades, neither does any defaulted
lookup. -/
theorem exchange_getD_false {agents : List BaseAgent}
    (hex : ∀ ag ∈ agents, ∀ b x y, ag.exchange_contribution b x y = false)
    (u : ℕ) (b : List ℕ) (x y : ℕ) :
    (agents.getD u defaultAgent).exchange_contribution b x y = false := by
  by_cases hu : u < agents.length
  · refine hex (agents.getD u defaultAgent) ?_ b x y
    rw [List.getD_eq_getElem?_getD, List.getElem?_eq_getElem hu]
    exact List.getElem_mem ..
  · rw [List.getD_eq_default _ _ (Nat.le_of_not_lt hu)]
    rfl

/-- With no willing trader, the naive exchange-graph recomputation reduces
to the possible removal of the spent sink edge. -/
theorem ueg_id (X : Mat) (G : Graph) (agents : List BaseAgent) (N : ℕ)
    (path_og : List ℕ) (inv : List ℕ) (lastI : ℕ)
    (hex : ∀ ag ∈ agents, ∀ b x y, ag.exchange_contribution b x y = false)
    (hdes : ∀ ag ∈ agents, ∀ d ∈ ag.desired, d < N)
    (hlast : ((path_og.drop 1).dropLast).getLast? = some lastI)
    (htar : ∀ u v, v ∈ gSucc G u → v = N) :
    update_exchange_graph X G agents N path_og inv =
      (if readX X lastI agents.length = 0 then removeEdge G lastI N else G) := by
  simp only [update_exchange_graph, hlast]
  refine foldl_graph_pres_mem
    (fun Gc => Gc = if readX X lastI agents.length = 0 then removeEdge G lastI N else G)
    _ _ ?_ _ rfl
  intro Gacc item1 hmem1 hQ
  refine foldl_graph_pres_mem
    (fun Gc => Gc = if readX X lastI agents.length = 0 then removeEdge G lastI N else G)
    _ _ ?_ _ hQ
  intro Gcur item2 hmem2 hQ2
  have hi2 : item2 < N := by
    rcases List.mem_append.mp (pySetList_subset _ item2 hmem2) with h2 | h2
    · exact gmad_lt hdes _ item2 h2
    · exact gmad_lt hdes _ item2 h2
  have hwill : ((get_owners_list X agents.length item1).erase agents.length).any
      (fun o => decide (o ≠ agents.length) &&
        (agents.getD o defaultAgent).exchange_contribution
          (get_bundle_indexes_from_allocation_matrix X N o) item1 item2) = false := by
    rw [List.any_eq_false]
    intro o ho
    rw [exchange_getD_false hex, Bool.and_false]
    exact fun hh => Bool.noConfusion hh
  have hnoedge : hasEdge Gcur item1 item2 = false := by
    rw [hasEdge, decide_eq_false_iff_not]
    intro hmem
    rw [hQ2] at hmem
    have : item2 = N := by
      split at hmem
      · rw [gSucc_removeEdge] at hmem
        split at hmem
        · exact htar _ _ (List.mem_of_mem_erase hmem)
        · exact htar _ _ hmem
      · exact htar _ _ hmem
    omega
  split
  · rw [hwill]
    simp only [Bool.false_eq_true, if_false, hnoedge]
    exact hQ2
  · exact hQ2

/-- With empty responsibility lists, the incremental exchange-graph update
reduces to the possible removal of the spent sink edge and leaves the edge
matrix untouched. -/
theorem uegE_id (X : Mat) (G : Graph) (E : EMat) (agents : List BaseAgent) (N : ℕ)
    (path_og : List ℕ) (inv : List ℕ) (lastI : ℕ)
    (hex : ∀ ag ∈ agents, ∀ b x y, ag.exchange_contribution b x y = false)
    (hE : ∀ a b, readE E a b = [])
    (hlast : ((path_og.drop 1).dropLast).getLast? = some lastI) :
    update_exchange_graph_E X G E agents N path_og inv =
      ((if readX X lastI agents.length = 0 then removeEdge G lastI N else G), E) := by
  simp only [update_exchange_graph_E, hlast]
  refine foldl_pres_mem
    (fun p => p = ((if readX X lastI agents.length = 0 then removeEdge G lastI N else G), E))
    _ _ ?_ _ rfl
  intro p u hu hQ
  refine foldl_pres_mem
    (fun p => p = ((if readX X lastI agents.length = 0 then removeEdge G lastI N else G), E))
    _ _ ?_ _ hQ
  intro p2 i1 hi1 hQ2
  refine foldl_pres_mem
    (fun p => p = ((if readX X lastI agents.length = 0 then removeEdge G lastI N else G), E))
    _ _ ?_ _ hQ2
  intro p3 i2 hi2 hQ3
  split
  · rw [hQ3]
    have hcell : readE ((if readX X lastI agents.length = 0
        then removeEdge G lastI N else G), E).2 i1 i2 = [] := hE i1 i2
    rw [hcell]
    simp only [List.not_mem_nil, if_false]
    rw [exchange_getD_false hex]
    simp
  · exact hQ3

/-- With players left and no fuel, the naive loop reports fuel
exhaustion. -/
theorem ys_loop_zero {agents : List BaseAgent} {caps : List ℤ} {criteria : GainCriteria}
    {weights : List ℚ} {st : YsState} (hne : st.players ≠ []) :
    ys_loop agents caps criteria weights 0 st = .ok none := by
  rw [ys_loop.eq_def]
  simp only [if_neg hne]

/-- With players left and no fuel, the accelerated loop reports fuel
exhaustion. -/
theorem ys_loop_E_zero {agents : List BaseAgent} {caps : List ℤ} {criteria : GainCriteria}
    {weights : List ℚ} {st : YsStateE} (hne : st.players ≠ []) :
    ys_loop_E agents caps criteria weights 0 st = .ok none := by
  rw [ys_loop_E.eq_def]
  simp only [if_neg hne]

/-- Unfolding lemma: a loop iteration of the accelerated engine that
raises. -/
theorem ys_loop_E_raise {agents : List BaseAgent} {caps : List ℤ} {criteria : GainCriteria}
    {weights : List ℚ} {fuel : ℕ} {st : YsStateE} {e : PyErr × YsStateE}
    (hne : st.players ≠ [])
    (hstep : ys_step_E agents caps criteria weights st = .error e) :
    ys_loop_E agents caps criteria weights (fuel + 1) st = .error e := by
  rw [ys_loop_E.eq_def]
  simp only [if_neg hne, hstep]

/-- The initial edge matrix holds only empty responsibility lists. -/
theorem readE_init (N a b : ℕ) : readE (init_edge_matrix N) a b = [] := by
  unfold readE init_edge_matrix
  have hrow : (List.replicate N (List.replicate N ([] : List ℕ))).getD a [] =
      if a < N then List.replicate N [] else [] := by
    by_cases ha : a < N
    · rw [if_pos ha, List.getD_eq_getElem?_getD, List.getElem?_replicate, if_pos ha]
      rfl
    · rw [if_neg ha, List.getD_eq_default _ _
        (by rw [List.length_replicate]; exact Nat.le_of_not_lt ha)]
  rw [hrow]
  split
  · by_cases hb : b < N
    · rw [List.getD_eq_getElem?_getD, List.getElem?_replicate, if_pos hb]
      rfl
    · rw [List.getD_eq_default _ _
        (by rw [List.length_replicate]; exact Nat.le_of_not_lt hb)]
  · rfl

/-- The initial exchange graph satisfies the no-trade invariant. -/
theorem noTradeInv_init (agents : List BaseAgent) (caps : List ℤ) :
    noTradeInv caps (init_state agents caps) := by
  constructor
  · intro u v hv
    rw [show (init_state agents caps).G = init_exchange_graph caps.length from rfl,
      gSucc_init] at hv
    split at hv
    · exact List.mem_singleton.mp hv
    · exact absurd hv (List.not_mem_nil _)
  · intro v hv
    rw [show (init_state agents caps).G = init_exchange_graph caps.length from rfl,
      gSucc_init, if_neg (by omega)] at hv
    exact absurd hv (List.not_mem_nil _)

/-- One-step bisimulation of the two engines when no agent ever trades:
both take the same branch, produce related states (identical shared
components), preserve the no-trade invariant, and keep the edge matrix
empty. -/
theorem ys_step_bisim (agents : List BaseAgent) (caps : List ℤ) (criteria : GainCriteria)
    (weights : List ℚ) (st : YsState) (stE : YsStateE)
    (hex : ∀ ag ∈ agents, ∀ b x y, ag.exchange_contribution b x y = false)
    (hdes : ∀ ag ∈ agents, ∀ d ∈ ag.desired, d < caps.length)
    (hrel : stateRel st stE)
    (hinv : noTradeInv caps st)
    (hE : ∀ a b, readE stE.E a b = []) :
    (∃ e st2 stE2, ys_step agents caps criteria weights st = .error (e, st2) ∧
      ys_step_E agents caps criteria weights stE = .error (e, stE2) ∧ stateRel st2 stE2) ∨
    (∃ st2 stE2, ys_step agents caps criteria weights st = .ok st2 ∧
      ys_step_E agents caps criteria weights stE = .ok stE2 ∧ stateRel st2 stE2 ∧
      noTradeInv caps st2 ∧ (∀ a b, readE stE2.E a b = [])) := by
  obtain ⟨hX, hG, hgain, hpl, hcnt⟩ := hrel
  obtain ⟨htar, hsrcout⟩ := hinv
  set pick := npArgmax st.gain with hpickd
  set G1 := add_agent_to_exchange_graph st.X st.G agents caps.length pick with hG1d
  set G2 := removeNode G1 (caps.length + 1) with hG2d
  have hG1ne : ∀ u, u ≠ caps.length + 1 → gSucc G1 u = gSucc st.G u := by
    intro u hu
    rw [hG1d]
    exact addAgent_ne st.X st.G agents caps.length pick u hu
  have hsrc1 : ∀ v ∈ gSucc G1 (caps.length + 1), v < caps.length := by
    intro v hv
    rw [hG1d] at hv
    exact desired_getD_lt hdes pick v
      (addAgent_src st.X st.G agents caps.length pick hsrcout v hv)
  have htar1 : ∀ u v, u ≠ caps.length + 1 → v ∈ gSucc G1 u → v ≤ caps.length := by
    intro u v hu hv
    rw [hG1ne u hu] at hv
    exact Nat.le_of_eq (htar u v hv)
  have hG1noSrcIn : ∀ u, caps.length + 1 ∉ gSucc G1 u := by
    intro u hmem
    by_cases hu : u = caps.length + 1
    · subst hu
      have := hsrc1 _ hmem
      omega
    · rw [hG1ne u hu] at hmem
      have := htar u _ hmem
      omega
  have hG2succ : ∀ u, gSucc G2 u = if u = caps.length + 1 then [] else gSucc st.G u := by
    intro u
    rw [hG2d, gSucc_rmSrc hG1noSrcIn u]
    by_cases hu : u = caps.length + 1
    · rw [if_pos hu, if_pos hu]
    · rw [if_neg hu, if_neg hu, hG1ne u hu]
  have hG2tar : ∀ u v, v ∈ gSucc G2 u → v = caps.length := by
    intro u v hv
    rw [hG2succ u] at hv
    split at hv
    · exact absurd hv (List.not_mem_nil _)
    · exact htar u v hv
  have hG2srcout : ∀ v, v ∉ gSucc G2 (caps.length + 1) := by
    intro v hv
    rw [hG2succ _, if_pos rfl] at hv
    exact absurd hv (List.not_mem_nil _)
  cases hpath : find_shortest_path G1 (caps.length + 1) caps.length (caps.length + 3) with
  | none =>
    have hstepN : ys_step agents caps criteria weights st =
        .ok { st with
              G := G2
              players := st.players.erase pick
              gain := st.gain.set pick PyFloat.ninf
              count := st.count + 1 } := by
      simp only [ys_step]
      rw [← hpickd, ← hG1d, ← hG2d]
      simp only [hpath]
    have hstepE : ys_step_E agents caps criteria weights stE =
        .ok { stE with
              G := G2
              players := stE.players.erase pick
              gain := stE.gain.set pick PyFloat.ninf
              count := stE.count + 1 } := by
      simp only [ys_step_E]
      rw [hX, hG, hgain]
      rw [← hpickd, ← hG1d, ← hG2d]
      simp only [hpath]
    refine Or.inr ⟨_, _, hstepN, hstepE, ⟨hX, rfl, by rw [hgain], by rw [hpl], by rw [hcnt]⟩,
      ⟨hG2tar, hG2srcout⟩, hE⟩
  | some path =>
    obtain ⟨mid, lastI, hpeq, hmid, hlastI, hmidlt, hedge1⟩ := fsp_shape hpath hsrc1 htar1
    obtain ⟨_, _, hchain, _⟩ := fsp_valid hpath
    have hsingle : mid = [lastI] := by
      cases mid with
      | nil => exact absurd hlastI (by simp)
      | cons v rest =>
        cases rest with
        | nil =>
          rw [List.getLast?_singleton, Option.some.injEq] at hlastI
          rw [hlastI]
        | cons v2 rest2 =>
          exfalso
          have hv1 : v < caps.length := hmidlt v (by simp)
          have hv2 : v2 < caps.length := hmidlt v2 (by simp)
          rw [hpeq] at hchain
          have h2 := fwdPath_tail _ _ _ hchain
          rw [List.cons_append, List.cons_append, fwdPath, Bool.and_eq_true] at h2
          have hmem : v2 ∈ gSucc G1 v := of_decide_eq_true h2.1
          rw [hG1ne v (by omega)] at hmem
          have := htar v v2 hmem
          omega
    subst hsingle
    have hvlt : lastI < caps.length := hmidlt lastI (by simp)
    have hmid2 : (path.drop 1).dropLast = [lastI] := hmid
    have hmidlast : ((path.drop 1).dropLast).getLast? = some lastI := by
      rw [hmid2]
      rfl
    set X1 := setX (setX st.X lastI agents.length (readX st.X lastI agents.length - 1))
      lastI pick 1 with hX1d
    have huaN : update_allocation st.X agents caps.length path pick = .ok (X1, [some pick]) := by
      simp only [update_allocation, hmid2, List.getLast?_singleton, List.reverse_cons,
        List.reverse_nil, List.nil_append, uaLoop]
    have huaE : update_allocation_E st.X G2 stE.E agents caps.length path pick =
        .ok (X1, G2, stE.E, [pick]) := by
      simp only [update_allocation_E, hmid2, List.getLast?_singleton, List.reverse_cons,
        List.reverse_nil, List.nil_append, uaLoopE]
    set G3 := if readX X1 lastI agents.length = 0 then removeEdge G2 lastI caps.length else G2
      with hG3d
    have hidN : update_exchange_graph X1 G2 agents caps.length path [pick] = G3 := by
      rw [hG3d]
      exact ueg_id X1 G2 agents caps.length path _ lastI hex hdes hmidlast hG2tar
    have hidE : update_exchange_graph_E X1 G2 stE.E agents caps.length path [pick] =
        (G3, stE.E) := by
      rw [hG3d]
      exact uegE_id X1 G2 stE.E agents caps.length path _ lastI hex hE hmidlast
    have hG3tar : ∀ u v, v ∈ gSucc G3 u → v = caps.length := by
      intro u v hv
      rw [hG3d] at hv
      split at hv
      · rw [gSucc_removeEdge] at hv
        split at hv
        · exact hG2tar _ v (List.mem_of_mem_erase hv)
        · exact hG2tar u v hv
      · exact hG2tar u v hv
    have hG3srcout : ∀ v, v ∉ gSucc G3 (caps.length + 1) := by
      intro v hv
      rw [hG3d] at hv
      split at hv
      · rw [gSucc_removeEdge] at hv
        split at hv
        · rename_i hu
          omega
        · exact hG2srcout v hv
      · exact hG2srcout v hv
    cases hgv : get_gain_function X1 agents caps.length pick criteria weights with
    | error e =>
      have hstepN : ys_step agents caps criteria weights st =
          .error (e, { st with
                       X := X1
                       G := G3
                       count := st.count + 1 }) := by
        simp only [ys_step]
        rw [← hpickd, ← hG1d, ← hG2d]
        simp only [hpath, huaN, List.all_cons, List.all_nil, Option.isSome_some,
          Bool.and_true, reduceIte, List.filterMap_cons, List.filterMap_nil, id, hidN, hgv]
      have hstepE : ys_step_E agents caps criteria weights stE =
          .error (e, { stE with
                       X := X1
                       G := G3
                       E := stE.E
                       count := stE.count + 1 }) := by
        simp only [ys_step_E]
        rw [hX, hG, hgain]
        rw [← hpickd, ← hG1d, ← hG2d]
        simp only [hpath, huaE, hidE, hgv]
      exact Or.inl ⟨e, _, _, hstepN, hstepE,
        ⟨rfl, rfl, by rw [hgain], by rw [hpl], by rw [hcnt]⟩⟩
    | ok gv =>
      have hstepN : ys_step agents caps criteria weights st =
          .ok { X := X1
                G := G3
                gain := st.gain.set pick gv
                players := st.players
                count := st.count + 1 } := by
        simp only [ys_step]
        rw [← hpickd, ← hG1d, ← hG2d]
        simp only [hpath, huaN, List.all_cons, List.all_nil, Option.isSome_some,
          Bool.and_true, reduceIte, List.filterMap_cons, List.filterMap_nil, id, hidN, hgv]
      have hstepE : ys_step_E agents caps criteria weights stE =
          .ok { X := X1
                G := G3
                E := stE.E
                gain := stE.gain.set pick gv
                players := stE.players
                count := stE.count + 1 } := by
        simp only [ys_step_E]
        rw [hX, hG, hgain]
        rw [← hpickd, ← hG1d, ← hG2d]
        simp only [hpath, huaE, hidE, hgv]
      exact Or.inr ⟨_, _, hstepN, hstepE,
        ⟨rfl, rfl, by rw [hgain], by rw [hpl], by rw [hcnt]⟩,
        ⟨hG3tar, hG3srcout⟩, hE⟩

/-- Whole-loop bisimulation of the two engines when no agent ever
trades. -/
theorem ys_loop_bisim (agents : List BaseAgent) (caps : List ℤ) (criteria : GainCriteria)
    (weights : List ℚ)
    (hex : ∀ ag ∈ agents, ∀ b x y, ag.exchange_contribution b x y = false)
    (hdes : ∀ ag ∈ agents, ∀ d ∈ ag.desired, d < caps.length) :
    ∀ (fuel : ℕ) (st : YsState) (stE : YsStateE),
      stateRel st stE → noTradeInv caps st → (∀ a b, readE stE.E a b = []) →
      outcomesAgree (ys_loop agents caps criteria weights fuel st)
        (ys_loop_E agents caps criteria weights fuel stE) := by
  intro fuel
  induction fuel with
  | zero =>
    intro st stE hrel hinv hE
    by_cases hp : st.players = []
    · rw [ys_loop_stop hp, ys_loop_E_stop (by rw [hrel.2.2.2.1]; exact hp)]
      exact hrel
    · rw [ys_loop_zero hp, ys_loop_E_zero (by rw [hrel.2.2.2.1]; exact hp)]
      exact trivial
  | succ fuel ih =>
    intro st stE hrel hinv hE
    by_cases hp : st.players = []
    · rw [ys_loop_stop hp, ys_loop_E_stop (by rw [hrel.2.2.2.1]; exact hp)]
      exact hrel
    · have hpE : stE.players ≠ [] := by
        rw [hrel.2.2.2.1]
        exact hp
      rcases ys_step_bisim agents caps criteria weights st stE hex hdes hrel hinv hE with
        ⟨e, st2, stE2, hN, hEe, hrel2⟩ | ⟨st2, stE2, hN, hEe, hrel2, hinv2, hE2⟩
      · rw [ys_loop_raise hp hN, ys_loop_E_raise hpE hEe]
        exact ⟨rfl, hrel2⟩
      · rw [ys_loop_go hp hN, ys_loop_E_go hpE hEe]
        exact ih st2 stE2 hrel2 hinv2 hE2

/-- Claim C1 (corrected): in general the two engines diverge (see the
counterexample), but they do agree whenever no intermediate swap can ever
be executed — if no agent is ever willing to exchange and desired items
are in range, every augmenting path is a direct `s → item → t` hop, the
owner-selection rules are never consulted, and the naive and accelerated
engines produce identical outcomes, in particular identical final
allocation matrices. -/
theorem C1_amended (agents : List BaseAgent) (caps : List ℤ) (criteria : GainCriteria)
    (weights : List ℚ) (fuel : ℕ)
    (hex : ∀ ag ∈ agents, ∀ b x y, ag.exchange_contribution b x y = false)
    (hdes : ∀ ag ∈ agents, ∀ d ∈ ag.desired, d < caps.length) :
    outcomesAgree (general_yankee_swap agents caps criteria weights fuel)
      (general_yankee_swap_E agents caps criteria weights fuel) := by
  unfold general_yankee_swap general_yankee_swap_E
  exact ys_loop_bisim agents caps criteria weights hex hdes fuel _ _
    ⟨rfl, rfl, rfl, rfl, rfl⟩ (noTradeInv_init agents caps)
    (fun a b => readE_init caps.length a b)

/-- Witness for the amended claim C1 on a one-agent, one-item instance
whose agent never trades: both engines agree on the whole run. -/
theorem C1_witness :
    (∀ ag ∈ [agC5_0], ∀ b x y, ag.exchange_contribution b x y = false) ∧
    (∀ ag ∈ [agC5_0], ∀ d ∈ ag.desired, d < ([1] : List ℤ).length) ∧
    outcomesAgree (general_yankee_swap [agC5_0] [1] .LorenzDominance [] 2)
      (general_yankee_swap_E [agC5_0] [1] .LorenzDominance [] 2) :=
  ⟨fun ag hag b x y => by
      rw [List.mem_singleton] at hag
      rw [hag]
      rfl,
    by decide,
    C1_amended [agC5_0] [1] .LorenzDominance [] 2
      (fun ag hag b x y => by
        rw [List.mem_singleton] at hag
        rw [hag]
        rfl)
      (by decide)⟩

end YS
